import Mathlib

/-!
# Verification of the flakehunt execution-and-aggregation core

Shallow embedding of the Go sources of `boyarskiy/flakehunt`:
`internal/classify/classify.go`, `internal/runner/runner.go`, the Cypress
adapter (`internal/adapters/cypress`), and the Jest adapter
(`internal/adapters/jest`).  Machine numerics (`int`, `time.Duration` =
int64 nanoseconds, `float64`) are embedded as `Nat`/`Int`/`ℚ` with exact
arithmetic; file-system and process effects are embedded as explicit
oracles passed to the run loop.
-/

namespace FlakeHunt

/-! ## Exact rational arithmetic

`Rat.add`, `Rat.mul` and `Rat.div` are irreducible in this toolchain, which
blocks kernel evaluation of concrete instances.  The embedding therefore
computes with the following `mkRat`-based operations, proved equal to the
standard ones, so that theorem statements can use `+`, `*`, `/`. -/

/-- Exact rational addition, kernel-computable. -/
def qadd (a b : ℚ) : ℚ :=
  mkRat (a.num * b.den + b.num * a.den) (a.den * b.den)

/-- Exact rational multiplication, kernel-computable. -/
def qmul (a b : ℚ) : ℚ :=
  mkRat (a.num * b.num) (a.den * b.den)

/-- Exact rational division, kernel-computable. -/
def qdiv (a b : ℚ) : ℚ :=
  if 0 ≤ b.num then mkRat (a.num * (b.den : Int)) (a.den * b.num.toNat)
  else mkRat (-(a.num * (b.den : Int))) (a.den * (-b.num).toNat)

theorem qmul_eq (a b : ℚ) : qmul a b = a * b := by
  unfold qmul
  rw [← Rat.mkRat_mul_mkRat, Rat.mkRat_self, Rat.mkRat_self]

theorem qadd_eq (a b : ℚ) : qadd a b = a + b := by
  unfold qadd
  conv_rhs => rw [← Rat.mkRat_self a, ← Rat.mkRat_self b]
  rw [Rat.mkRat_add_mkRat _ _ a.den_nz b.den_nz]

theorem qdiv_natCast (a : ℚ) (n : ℕ) (hn : n ≠ 0) : qdiv a n = a / n := by
  unfold qdiv
  rw [if_pos (by rw [Rat.num_natCast]; exact Int.natCast_nonneg n)]
  rw [Rat.num_natCast, Rat.den_natCast, Int.toNat_natCast, Int.natCast_one,
    mul_one]
  rw [eq_div_iff (by exact_mod_cast hn)]
  calc mkRat a.num (a.den * n) * (n : ℚ)
      = mkRat a.num (a.den * n) * mkRat (n : Int) 1 := by
        rw [Rat.mkRat_one]
        norm_cast
    _ = mkRat (a.num * n) (a.den * n * 1) := Rat.mkRat_mul_mkRat ..
    _ = mkRat (a.num * n) (a.den * n) := by rw [mul_one]
    _ = mkRat a.num a.den := Rat.mkRat_mul_right hn
    _ = a := Rat.mkRat_self a

/-! ## Strings

`strings.Fields` and `strings.TrimSpace` are embedded at character level so
that they evaluate in the kernel. -/

/-- Helper of `goFields`: splits the remaining characters around runs of
whitespace, `cur` holding the reversed current word. -/
def goFields (cur : List Char) : List Char → List (List Char)
  | [] => if cur.isEmpty then [] else [cur.reverse]
  | c :: cs =>
    if c.isWhitespace then
      if cur.isEmpty then goFields [] cs
      else cur.reverse :: goFields [] cs
    else goFields (c :: cur) cs

/-- `strings.Fields`: the whitespace-separated words of a string. -/
def fields (s : String) : List String :=
  (goFields [] s.data).map (fun w => String.mk w)

/-- `strings.TrimSpace`: leading and trailing whitespace removed. -/
def trimSpace (s : String) : String :=
  String.mk
    (((s.data.dropWhile Char.isWhitespace).reverse.dropWhile
      Char.isWhitespace).reverse)

/-- Go's `<` on strings, embedded as the lexicographic order on the
character list (equal to the standard `String` order, see `strLT_iff`),
stated this way so that it evaluates in the kernel. -/
def strLT (a b : String) : Prop :=
  a.data < b.data

instance : DecidableRel strLT := fun a b =>
  inferInstanceAs (Decidable (a.data < b.data))

theorem strLT_iff (a b : String) : strLT a b ↔ a < b :=
  String.lt_iff_toList_lt.symm

/-- Go's `≤` on strings (`sort.Strings` order). -/
def strLE (a b : String) : Prop :=
  ¬strLT b a

instance : DecidableRel strLE := fun a b =>
  inferInstanceAs (Decidable ¬strLT b a)

theorem strLE_iff (a b : String) : strLE a b ↔ a ≤ b := by
  rw [strLE, strLT_iff, not_lt]

/-- Modelled from the spec: the `internal/model` package is not present under
`src/`; the spec's §3 DATA MODEL defines `Outcome` as one of `Pass`, `Fail`,
`Skip`. -/
inductive Outcome where
  | pass
  | fail
  | skip
deriving DecidableEq, Repr

/-- Modelled from the spec: `FailureSignature` is the fixed closed set
`{Timeout, Selector, Network, DomDetach, Assertion, Unknown}` (spec §3;
`internal/model` is not present under `src/`). -/
inductive FailureSignature where
  | timeout
  | selector
  | network
  | domDetach
  | assertion
  | unknown
deriving DecidableEq, Repr

/-- Modelled from the spec: `Classification` is one of `Stable`,
`DeterministicFail`, `Flaky` (spec §3; `internal/model` is not present under
`src/`). -/
inductive Classification where
  | stable
  | deterministicFail
  | flaky
deriving DecidableEq, Repr

/-- Modelled from the spec: one (TestIdentity, Outcome, duration,
failure-text) tuple of a `RunRecord` (spec §3).  `duration` is
`time.Duration` (int64 nanoseconds) embedded as `ℚ`. -/
structure TestResult where
  testID : String
  outcome : Outcome
  duration : ℚ
  failureMessage : String
deriving DecidableEq, Repr

/-- Modelled from the spec: a `RunRecord` — the outcome tuples of one
execution, tagged with a 1-based run index, or a run-level error string
(spec §3).  Corresponds to `model.RunResult` used by `classify.Aggregate`
and `runner.Run`. -/
structure RunResult where
  runIndex : Nat
  tests : List TestResult
  err : Option String
deriving DecidableEq, Repr

/-- Modelled from the spec: one `FailureEvidence` entry — run index,
truncated excerpt, signature (spec §3). -/
structure FailureEvidence where
  runIndex : Nat
  excerpt : String
  signature : FailureSignature
deriving DecidableEq, Repr

/-- Modelled from the spec: `model.AggregatedTest`, the per-test aggregate
(spec §3).  Numeric fields (`AvgDuration`, `FlakeRate`, `WastedTime`) are
embedded as exact rationals. -/
structure AggregatedTest where
  testID : String
  passCount : Nat
  failCount : Nat
  skipCount : Nat
  totalRuns : Nat
  avgDuration : ℚ
  classification : Classification
  flakeRate : ℚ
  wastedTime : ℚ
  failureEvidence : List FailureEvidence
deriving DecidableEq, Repr

/-! ## Signature detection (`classify.go` lines 18–81)

The Go code matches a fixed list of case-insensitive regular expressions.
The only regex constructs used are literal characters, `\s*`, an optional
character (`d?`), a literal dot (`\.`), and word boundaries (`\b`); we embed
them with a small explicit pattern language and a fuelled matcher. -/

/-- One element of an embedded pattern: a literal character, `\s*`,
an optional character, or a `\b` word boundary. -/
inductive Pat where
  | lit (c : Char)
  | ws
  | optc (c : Char)
  | wordB
deriving DecidableEq, Repr

/-- Word character for `\b` (regexp `\w`): ASCII letter, digit or
underscore. -/
def isWordChar (c : Char) : Bool :=
  c.isAlpha || c.isDigit || c = '_'

/-- Whether a `\b` word boundary sits between the previous character
(`none` at the start of the text) and the next character (`none` at the
end). -/
def atBoundary (prev : Option Char) (next : Option Char) : Bool :=
  (match prev with
   | none => false
   | some c => isWordChar c)
  != (match next with
      | none => false
      | some c => isWordChar c)

/-- Fuelled matcher: does pattern `ps` match a prefix of `s`, where `prev`
is the character immediately before `s` in the full text?  Every recursive
call strictly decreases `ps.length + s.length`, so fuel
`ps.length + s.length + 1` is always sufficient. -/
def matchPat : Nat → List Pat → Option Char → List Char → Bool
  | 0, _, _, _ => false
  | _ + 1, [], _, _ => true
  | f + 1, Pat.lit c :: ps, _, s =>
    match s with
    | [] => false
    | x :: xs => x = c && matchPat f ps (some x) xs
  | f + 1, Pat.optc c :: ps, prev, s =>
    matchPat f ps prev s ||
      (match s with
       | [] => false
       | x :: xs => x = c && matchPat f ps (some x) xs)
  | f + 1, Pat.ws :: ps, prev, s =>
    matchPat f ps prev s ||
      (match s with
       | [] => false
       | x :: xs => x.isWhitespace && matchPat f (Pat.ws :: ps) (some x) xs)
  | f + 1, Pat.wordB :: ps, prev, s =>
    atBoundary prev s.head? && matchPat f ps prev s

/-- Does the pattern match starting at some position of the text?  `prev` is
the character before the current suffix. -/
def matchFrom (ps : List Pat) : Option Char → List Char → Bool
  | prev, s =>
    matchPat (ps.length + s.length + 1) ps prev s ||
      (match s with
       | [] => false
       | x :: xs => matchFrom ps (some x) xs)

/-- Case-insensitive match of an embedded pattern anywhere in a string,
like `regexp.MatchString` with a `(?i)` pattern: the text is lowercased and
the patterns below are written in lowercase. -/
def patMatch (ps : List Pat) (s : String) : Bool :=
  matchFrom ps none (s.data.map Char.toLower)

/-- Literal pattern from a string. -/
def lits (s : String) : List Pat :=
  s.data.map Pat.lit

/-- Patterns of `SignatureTimeout`: `(?i)timeout`, `(?i)timed?\s*out`,
`(?i)exceeded\s*time` (`classify.go` lines 22–29). -/
def timeoutPats : List (List Pat) :=
  [lits "timeout",
   lits "time" ++ [Pat.optc 'd', Pat.ws] ++ lits "out",
   lits "exceeded" ++ [Pat.ws] ++ lits "time"]

/-- Patterns of `SignatureSelector`: `(?i)selector`,
`(?i)element\s*not\s*found`, `(?i)cy\.get` (`classify.go` lines 30–37). -/
def selectorPats : List (List Pat) :=
  [lits "selector",
   lits "element" ++ [Pat.ws] ++ lits "not" ++ [Pat.ws] ++ lits "found",
   lits "cy.get"]

/-- Patterns of `SignatureNetwork`: `(?i)network`, `(?i)ECONNREFUSED`,
`(?i)fetch\s*failed` (`classify.go` lines 38–45). -/
def networkPats : List (List Pat) :=
  [lits "network",
   lits "econnrefused",
   lits "fetch" ++ [Pat.ws] ++ lits "failed"]

/-- Patterns of `SignatureDOMDetach`: `(?i)detached`,
`(?i)stale\s*element` (`classify.go` lines 46–52). -/
def domDetachPats : List (List Pat) :=
  [lits "detached",
   lits "stale" ++ [Pat.ws] ++ lits "element"]

/-- Patterns of `SignatureAssertion`: `(?i)\bexpect\b`, `(?i)\bassert`,
`(?i)\btoBe\b`, `(?i)\btoEqual\b` (`classify.go` lines 53–61). -/
def assertionPats : List (List Pat) :=
  [[Pat.wordB] ++ lits "expect" ++ [Pat.wordB],
   [Pat.wordB] ++ lits "assert",
   [Pat.wordB] ++ lits "tobe" ++ [Pat.wordB],
   [Pat.wordB] ++ lits "toequal" ++ [Pat.wordB]]

/-- Does any pattern of the list match the message? -/
def anyMatch (pats : List (List Pat)) (msg : String) : Bool :=
  pats.any (fun ps => patMatch ps msg)

/-- The ordered category rules of `signaturePatterns` (`classify.go` lines
18–62): Timeout, Selector, Network, DomDetach, Assertion. -/
def signaturePatterns : List (FailureSignature × List (List Pat)) :=
  [(FailureSignature.timeout, timeoutPats),
   (FailureSignature.selector, selectorPats),
   (FailureSignature.network, networkPats),
   (FailureSignature.domDetach, domDetachPats),
   (FailureSignature.assertion, assertionPats)]

/-- First category whose pattern set matches, in rule order. -/
def firstMatching (rules : List (FailureSignature × List (List Pat)))
    (msg : String) : FailureSignature :=
  match rules with
  | [] => FailureSignature.unknown
  | (sig, pats) :: rest =>
    if anyMatch pats msg then sig else firstMatching rest msg

/-- `DetectSignature` (`classify.go` lines 67–81): empty message yields
`Unknown`; otherwise the rules are checked in order and the first matching
pattern wins; no match yields `Unknown`. -/
def DetectSignature (failureMessage : String) : FailureSignature :=
  if failureMessage = "" then FailureSignature.unknown
  else firstMatching signaturePatterns failureMessage

/-! ## Excerpt truncation (`classify.go` lines 83–92) -/

/-- `maxExcerptLen` (`classify.go` line 14). -/
def maxExcerptLen : Nat := 200

/-- `truncateExcerpt` (`classify.go` lines 84–92): whitespace
normalization via `strings.Fields`/`strings.Join`, then a hard cap with an
ellipsis marker.  Go slices bytes; the cues here are ASCII so we embed the
cap at character granularity. -/
def truncateExcerpt (s : String) : String :=
  let t := String.mk (" ".intercalate (fields s)).data
  if t.data.length ≤ maxExcerptLen then t
  else String.mk (t.data.take (maxExcerptLen - 3)) ++ "..."

/-! ## Aggregation (`classify.go` lines 94–162) -/

/-- `testAggregator` (`classify.go` lines 95–103). -/
structure TestAggregator where
  testID : String
  passCount : Nat
  failCount : Nat
  skipCount : Nat
  totalDuration : ℚ
  durationCount : Nat
  failureEvidence : List FailureEvidence
deriving DecidableEq, Repr

/-- Fresh aggregator for a newly seen test identity (`classify.go` lines
120–124). -/
def newAggregator (id : String) : TestAggregator :=
  { testID := id, passCount := 0, failCount := 0, skipCount := 0,
    totalDuration := 0, durationCount := 0, failureEvidence := [] }

/-- The `switch test.Outcome` body of `Aggregate` (`classify.go` lines
127–147) applied to one aggregator. -/
def applyOutcome (runIndex : Nat) (t : TestResult) (g : TestAggregator) :
    TestAggregator :=
  match t.outcome with
  | Outcome.pass =>
    { g with passCount := g.passCount + 1,
             totalDuration := qadd g.totalDuration t.duration,
             durationCount := g.durationCount + 1 }
  | Outcome.fail =>
    { g with failCount := g.failCount + 1,
             totalDuration := qadd g.totalDuration t.duration,
             durationCount := g.durationCount + 1,
             failureEvidence := g.failureEvidence ++
               [{ runIndex := runIndex,
                  excerpt := truncateExcerpt t.failureMessage,
                  signature := DetectSignature t.failureMessage }] }
  | Outcome.skip =>
    { g with skipCount := g.skipCount + 1 }

/-- Processing of one test of one run (`classify.go` lines 117–148): the
aggregator map keyed by `TestID` is embedded as a list with distinct keys;
the matching entry is updated in place, a missing key is appended. -/
def processTest (runIndex : Nat) (t : TestResult) :
    List TestAggregator → List TestAggregator
  | [] => [applyOutcome runIndex t (newAggregator t.testID)]
  | g :: gs =>
    if g.testID = t.testID then applyOutcome runIndex t g :: gs
    else g :: processTest runIndex t gs

/-- Processing of one run (`classify.go` lines 116–149). -/
def processRun (gs : List TestAggregator) (run : RunResult) :
    List TestAggregator :=
  run.tests.foldl (fun acc t => processTest run.runIndex t acc) gs

/-- Order used to sort `FailureEvidence` by run index (`classify.go` lines
194–196). -/
def evidenceLE (a b : FailureEvidence) : Prop :=
  a.runIndex ≤ b.runIndex

instance : DecidableRel evidenceLE := fun a b =>
  inferInstanceAs (Decidable (a.runIndex ≤ b.runIndex))

instance : IsTotal FailureEvidence evidenceLE :=
  ⟨fun a b => Nat.le_total a.runIndex b.runIndex⟩

instance : IsTrans FailureEvidence evidenceLE :=
  ⟨fun _ _ _ hab hbc => Nat.le_trans hab hbc⟩

/-- `classify` (`classify.go` lines 213–229). -/
def classify (passCount failCount totalRuns : Nat) : Classification :=
  if totalRuns = 0 then Classification.stable
  else if 1 ≤ passCount ∧ 1 ≤ failCount then Classification.flaky
  else if failCount = totalRuns then Classification.deterministicFail
  else Classification.stable

/-- `buildAggregatedTest` (`classify.go` lines 165–210).  `numRuns` is the
length of the run list handed to `Aggregate`.  Go's `int64` duration
division and `float64` products are embedded as exact rational
arithmetic. -/
def buildAggregatedTest (g : TestAggregator) (numRuns : Nat) :
    AggregatedTest :=
  let totalRuns := g.passCount + g.failCount
  let avgDuration : ℚ :=
    if 0 < g.durationCount then qdiv g.totalDuration g.durationCount else 0
  let classification := classify g.passCount g.failCount totalRuns
  let flakeRate : ℚ :=
    if 0 < totalRuns then qdiv (g.failCount : ℚ) (totalRuns : ℚ) else 0
  let wastedTime : ℚ :=
    if classification = Classification.flaky ∧ 0 < totalRuns then
      qmul (qmul flakeRate avgDuration) (numRuns : ℚ)
    else 0
  { testID := g.testID,
    passCount := g.passCount,
    failCount := g.failCount,
    skipCount := g.skipCount,
    totalRuns := totalRuns,
    avgDuration := avgDuration,
    classification := classification,
    flakeRate := flakeRate,
    wastedTime := wastedTime,
    failureEvidence := g.failureEvidence.insertionSort evidenceLE }

/-- The comparator of `sortAggregatedTests` (`classify.go` lines 233–253):
`wastedTime` descending, then `flakeRate` descending, then `failCount`
descending, then `TestID` ascending. -/
def aggLess (a b : AggregatedTest) : Prop :=
  a.wastedTime > b.wastedTime ∨
    (a.wastedTime = b.wastedTime ∧
      (a.flakeRate > b.flakeRate ∨
        (a.flakeRate = b.flakeRate ∧
          (a.failCount > b.failCount ∨
            (a.failCount = b.failCount ∧ strLT a.testID b.testID)))))

instance : DecidableRel aggLess := fun a b => by
  unfold aggLess; infer_instance

/-- Non-strict version of the sort comparator: `a` may come before `b`. -/
def aggLE (a b : AggregatedTest) : Prop :=
  ¬aggLess b a

instance : DecidableRel aggLE := fun a b =>
  inferInstanceAs (Decidable ¬aggLess b a)

/-- `sortAggregatedTests` (`classify.go` lines 233–253).  Go's
`sort.Slice` produces some permutation ordered by the comparator; we embed
it as insertion sort by the non-strict comparator, which produces such a
permutation. -/
def sortAggregatedTests (tests : List AggregatedTest) :
    List AggregatedTest :=
  tests.insertionSort aggLE

/-- `Aggregate` (`classify.go` lines 107–162): fold all runs into the
aggregator list, build one `AggregatedTest` per aggregator with
`numRuns = runs.length`, and sort deterministically. -/
def Aggregate (runs : List RunResult) : List AggregatedTest :=
  if runs.isEmpty then []
  else
    sortAggregatedTests
      (((runs.foldl processRun []).map
        (fun g => buildAggregatedTest g runs.length)))

/-- `FilterByClassification` (`classify.go` lines 257–265). -/
def FilterByClassification (tests : List AggregatedTest)
    (class' : Classification) : List AggregatedTest :=
  tests.filter (fun t => t.classification = class')

/-- `SignatureSummary` (`classify.go` lines 269–277): the count of
`FailureEvidence` entries per signature across all tests; the Go
`map[string]int` is embedded as a function on the closed signature set. -/
def SignatureSummary (tests : List AggregatedTest)
    (sig : FailureSignature) : Nat :=
  (tests.map (fun t =>
    t.failureEvidence.countP (fun ev => ev.signature = sig))).sum

/-- `TopFlakes` (`classify.go` lines 280–286). -/
def TopFlakes (tests : List AggregatedTest) (n : Nat) :
    List AggregatedTest :=
  let flaky := FilterByClassification tests Classification.flaky
  if flaky.length ≤ n then flaky else flaky.take n

/-! ## Execution orchestrator (`runner.go`)

The file-system, clock, child-process and context effects of `runner.Run`
are embedded as per-run oracles: `elapsed i` is the `time.Since(startTime)`
observed at the check before run `i`, `cancelled i` the `ctx.Err() != nil`
check, and the remaining fields the outcomes of the effectful steps of
`executeRun` for run `i`. -/

/-- `runner.Config` (`runner.go` lines 19–27).  `runs` and `keepRuns` are
Go `int`, `timeout` a `time.Duration` in nanoseconds; the adapter is kept
abstract (its per-run behaviour lives in `RunEnv`), only its presence is
configuration. -/
structure RunnerConfig where
  runs : Int
  timeout : Int
  keepRuns : Int
  command : List String
  hasAdapter : Bool
deriving DecidableEq, Repr

/-- The environment oracles consumed by `runner.Run` and
`runner.executeRun`, indexed by run number. -/
structure RunEnv where
  elapsed : Nat → Int
  cancelled : Nat → Bool
  outDirOk : Bool
  mkdirOk : Nat → Bool
  builtCommand : Nat → List String
  stdoutOk : Nat → Bool
  stderrOk : Nat → Bool
  artifactExists : Nat → Bool
  parseResult : Nat → Except String (List TestResult)
  cleanupFails : Bool

/-- `runner.Result` (`runner.go` lines 30–34); the `LatestDir` path is not
modelled. -/
structure RunnerResult where
  runResults : List RunResult
  runsExecuted : Nat
deriving DecidableEq, Repr

/-- The pre-run check of the loop (`runner.go` lines 65–73): timeout
elapsed (only when a timeout is configured) or context cancelled. -/
def stopCheck (cfg : RunnerConfig) (env : RunEnv) (i : Nat) : Bool :=
  (decide (0 < cfg.timeout) && decide (cfg.timeout ≤ env.elapsed i)) ||
    env.cancelled i

/-- `executeRun` (`runner.go` lines 107–151): build the command, create the
capture files, run the child (its exit code is deliberately ignored), check
the expected artifact, parse.  Every failure is an error return. -/
def executeRun (env : RunEnv) (i : Nat) : Except String RunResult :=
  if (env.builtCommand i).isEmpty then
    Except.error "adapter returned empty command"
  else if !env.stdoutOk i then
    Except.error "failed to create stdout.txt"
  else if !env.stderrOk i then
    Except.error "failed to create stderr.txt"
  else if !env.artifactExists i then
    Except.error "expected artifact not found"
  else
    match env.parseResult i with
    | Except.error e => Except.error ("failed to parse run results: " ++ e)
    | Except.ok tests =>
      Except.ok { runIndex := i, tests := tests, err := none }

deriving instance DecidableEq for Except

/-- The record stored for run `i` (`runner.go` lines 80–88): the parsed
result, or a record carrying the error string instead of test data. -/
def recordRun (env : RunEnv) (i : Nat) : RunResult :=
  match executeRun env i with
  | Except.ok r => r
  | Except.error e => { runIndex := i, tests := [], err := some e }

/-- The loop body of `Run` (`runner.go` lines 64–89), starting at run `i`
with `rem` configured runs left: stop silently on the pre-run check, abort
the session if the run directory cannot be created, otherwise record either
the parsed `RunRecord` or an error record and continue. -/
def runLoop (cfg : RunnerConfig) (env : RunEnv) :
    Nat → Nat → Except String (List RunResult)
  | _, 0 => Except.ok []
  | i, rem + 1 =>
    if stopCheck cfg env i then Except.ok []
    else if !env.mkdirOk i then
      Except.error "failed to create run directory"
    else
      match runLoop cfg env (i + 1) rem with
      | Except.error e => Except.error e
      | Except.ok rest => Except.ok (recordRun env i :: rest)

/-- `runner.Run` (`runner.go` lines 37–104): configuration validation, the
clean-and-create of the output tree, the run loop, and the result whose
`RunsExecuted` is the length of the collected record list.  The keep-runs
cleanup after the loop only removes directories and logs failures; it
contributes nothing to the returned value (see `cleanupRemoved` for its
removal set). -/
def Run (cfg : RunnerConfig) (env : RunEnv) : Except String RunnerResult :=
  if cfg.runs ≤ 0 then
    Except.error "--runs must be a positive integer"
  else if cfg.command.isEmpty then
    Except.error "test command is required after --"
  else if !cfg.hasAdapter then
    Except.error "adapter is required"
  else if !env.outDirOk then
    Except.error "failed to clean output directory"
  else
    match runLoop cfg env 1 cfg.runs.toNat with
    | Except.error e => Except.error e
    | Except.ok rs =>
      Except.ok { runResults := rs, runsExecuted := rs.length }

/-! ## Run-directory names and retention cleanup (`runner.go` lines
75, 154–181) -/

/-- `fmt.Sprintf "%03d" i` (`runner.go` line 75): the run-directory name,
zero-padded to three digits. -/
def runDirName (i : Nat) : String :=
  if i < 1000 then
    String.mk [Nat.digitChar (i / 100), Nat.digitChar (i / 10 % 10),
      Nat.digitChar (i % 10)]
  else Nat.repr i

/-- The removal set of `cleanupOldRuns` (`runner.go` lines 154–181): sort
the directory names as strings (`sort.Strings`), and when more exist than
`keepRuns`, remove the lexicographically first `length - keepRuns` of
them. -/
def cleanupRemoved (dirs : List String) (keepRuns : Nat) : List String :=
  let n := dirs.length
  let sorted := dirs.insertionSort strLE
  if keepRuns < n then sorted.take (n - keepRuns) else []

/-! ## Cypress adapter (`internal/adapters/cypress`)

`Parse` is embedded from the decoded JUnit XML onwards: the input is the
per-file lists of decoded `JUnitTestCase` values, in the sorted file order
that `Parse` establishes with `sort.Strings` on the glob result. -/

/-- Decoded `JUnitTestCase` (cypress source lines 35–62): a `testcase`
element with optional `failure`, `error` and `skipped` children, each
child's `(message, content)` attributes. -/
structure JUnitTestCase where
  name : String
  classname : String
  time : ℚ
  failure : Option (String × String)
  fault : Option (String × String)
  skipped : Option String
deriving DecidableEq, Repr

/-- `buildTestID` (cypress source lines 200–209): trim both parts; empty
part means invalid (signalled by the empty string); otherwise
`classname::name`. -/
def buildTestID (classname name : String) : String :=
  let c := trimSpace classname
  let n := trimSpace name
  if c = "" ∨ n = "" then "" else c ++ "::" ++ n

/-- `determineOutcome` (cypress source lines 212–220): skipped, else
failure or error, else pass. -/
def determineOutcome (tc : JUnitTestCase) : Outcome :=
  if tc.skipped.isSome then Outcome.skip
  else if tc.failure.isSome || tc.fault.isSome then Outcome.fail
  else Outcome.pass

/-- `extractFailureMessage` (cypress source lines 223–237): prefer the
trimmed message attribute, fall back to the trimmed content, cap at 500
with an ellipsis. -/
def extractFailureMessage (message content : String) : String :=
  let m := trimSpace message
  let m := if m = "" then trimSpace content else m
  if 500 < m.data.length then String.mk (m.data.take 500) ++ "..."
  else m

/-- The `model.TestResult` built for one decoded test case (cypress source
lines 126–137); `time` is seconds, converted to duration nanoseconds. -/
def mkCypressTest (tc : JUnitTestCase) : TestResult :=
  { testID := buildTestID tc.classname tc.name,
    outcome := determineOutcome tc,
    duration := qmul tc.time ((1000000000 : ℕ) : ℚ),
    failureMessage :=
      match tc.failure with
      | some f => extractFailureMessage f.1 f.2
      | none =>
        match tc.fault with
        | some e => extractFailureMessage e.1 e.2
        | none => "" }

/-- Update-or-append on the assoc list embedding the Go
`map[string]model.TestResult`. -/
def upsert (k : String) (v : TestResult) :
    List (String × TestResult) → List (String × TestResult)
  | [] => [(k, v)]
  | (k', v') :: rest =>
    if k' = k then (k, v) :: rest else (k', v') :: upsert k v rest

/-- The test-case collection loop of cypress `Parse` (source lines
114–142): walk the decoded cases in file order, reject a case with an
invalid identity, and write each case into the map so that the last
occurrence of an identity wins. -/
def collectCases : List JUnitTestCase → List (String × TestResult) →
    Except String (List (String × TestResult))
  | [], m => Except.ok m
  | tc :: rest, m =>
    let id := buildTestID tc.classname tc.name
    if id = "" then
      Except.error "invalid test case: missing classname or name attribute"
    else collectCases rest (upsert id (mkCypressTest tc) m)

/-- Order on map entries used to emit cypress results sorted by
`TestID` (source lines 144–154 sort the key list with `sort.Strings`). -/
def entryLE (a b : String × TestResult) : Prop :=
  strLE a.1 b.1

instance : DecidableRel entryLE := fun a b =>
  inferInstanceAs (Decidable (strLE a.1 b.1))

/-- Cypress `Parse` (source lines 96–159), from the decoded fragments in
sorted file order: empty artifact set is an error; otherwise collect with
last-occurrence-wins and emit the map's values sorted by `TestID`. -/
def cypressParse (fragments : List (List JUnitTestCase)) :
    Except String RunResult :=
  if fragments.isEmpty then
    Except.error "no XML files found"
  else
    match collectCases fragments.flatten [] with
    | Except.error e => Except.error e
    | Except.ok m =>
      Except.ok { runIndex := 0,
                  tests := (m.insertionSort entryLE).map (fun e => e.2),
                  err := none }

/-! ## Jest adapter (`internal/adapters/jest/jest.go`)

`Parse` is embedded from the decoded JSON onwards; the file-read,
empty-file and JSON-unmarshal error paths precede the logic under
verification. -/

/-- Decoded `AssertionResult` (`jest.go` lines 225–231). -/
structure JestAssertion where
  fullName : String
  status : String
  title : String
  duration : Int
  failureMessages : List String
deriving DecidableEq, Repr

/-- Decoded `TestResult` of one Jest test file (`jest.go` lines 218–222). -/
structure JestFileResult where
  name : String
  status : String
  assertionResults : List JestAssertion
deriving DecidableEq, Repr

/-- Decoded `JestOutput` (`jest.go` lines 204–215); only `testResults` is
read by `Parse`. -/
structure JestOutput where
  testResults : List JestFileResult
deriving DecidableEq, Repr

/-- `mapStatus` (`jest.go` lines 190–201). -/
def mapStatus (status : String) : Except String Outcome :=
  if status = "passed" then Except.ok Outcome.pass
  else if status = "failed" then Except.ok Outcome.fail
  else if status = "pending" ∨ status = "skipped" ∨ status = "todo" ∨
      status = "disabled" then Except.ok Outcome.skip
  else Except.error ("unknown status: " ++ status)

/-- `strings.Join` with a separator. -/
def joinWith (sep : String) : List String → String
  | [] => ""
  | [x] => x
  | x :: xs => x ++ sep ++ joinWith sep xs

/-- The per-assertion body of `extractTests` (`jest.go` lines 136–183) for
one test file named `fileName`: validate `fullName` and `status`, map the
status, build `fileName::fullName`, convert the millisecond duration to
nanoseconds, join the failure messages. -/
def extractAssertions (fileName : String) :
    List JestAssertion → Except String (List TestResult)
  | [] => Except.ok []
  | a :: rest =>
    if a.fullName = "" then
      Except.error "assertion fullName is missing or empty"
    else if a.status = "" then
      Except.error "assertion status is missing or empty"
    else
      match mapStatus a.status with
      | Except.error _ => Except.error "status has unknown value"
      | Except.ok o =>
        match extractAssertions fileName rest with
        | Except.error e => Except.error e
        | Except.ok ts =>
          Except.ok
            ({ testID := fileName ++ "::" ++ a.fullName,
               outcome := o,
               duration := ((a.duration * 1000000 : Int) : ℚ),
               failureMessage := joinWith "\n" a.failureMessages } :: ts)

/-- `extractTests` (`jest.go` lines 123–187): every test file must carry a
name; the per-file assertion lists are extracted and concatenated in
artifact order. -/
def extractTests : List JestFileResult → Except String (List TestResult)
  | [] => Except.ok []
  | tr :: rest =>
    if tr.name = "" then
      Except.error "testResults name is missing or empty"
    else
      match extractAssertions tr.name tr.assertionResults with
      | Except.error e => Except.error e
      | Except.ok ts =>
        match extractTests rest with
        | Except.error e => Except.error e
        | Except.ok ts' => Except.ok (ts ++ ts')

/-- Order on canonical test results used by jest `Parse` to sort by
`TestID` (`jest.go` lines 108–110). -/
def testLE (a b : TestResult) : Prop :=
  strLE a.testID b.testID

instance : DecidableRel testLE := fun a b =>
  inferInstanceAs (Decidable (strLE a.testID b.testID))

/-- Jest `Parse` (`jest.go` lines 73–115), from the decoded output
onwards: extract all assertion results and sort them by `TestID`.  Note:
no per-identity collapsing happens here; a repeated `TestID` keeps every
occurrence. -/
def jestParse (out : JestOutput) : Except String RunResult :=
  match extractTests out.testResults with
  | Except.error e => Except.error e
  | Except.ok tests =>
    Except.ok { runIndex := 0,
                tests := tests.insertionSort testLE,
                err := none }

/-- The sort key of `sortAggregatedTests` as one lexicographic value:
`wastedTime` and `flakeRate` and `failCount` reversed (descending), then
`TestID` ascending. -/
def sortKey (a : AggregatedTest) : ℚᵒᵈ ×ₗ ℚᵒᵈ ×ₗ ℕᵒᵈ ×ₗ String :=
  toLex (OrderDual.toDual a.wastedTime,
    toLex (OrderDual.toDual a.flakeRate,
      toLex (OrderDual.toDual a.failCount, a.testID)))

/-- The last test case of the list whose identity is `k` (the occurrence
cypress `Parse`'s last-wins map keeps). -/
def lastMatch (k : String) : List JUnitTestCase → Option JUnitTestCase
  | [] => none
  | tc :: rest =>
    match lastMatch k rest with
    | some tc' => some tc'
    | none =>
      if buildTestID tc.classname tc.name = k then some tc else none

/-- First-match association-list lookup. -/
def alookup (k : String) : List (String × TestResult) → Option TestResult
  | [] => none
  | (k', v) :: rest => if k' = k then some v else alookup k rest

/-! ## Concrete inputs used by the witnesses -/

/-- Short constructor for a canonical test result. -/
def mkT (id : String) (o : Outcome) (d : ℚ) (msg : String) : TestResult :=
  { testID := id, outcome := o, duration := d, failureMessage := msg }

/-- Three runs of one test: pass, fail with a timeout message, pass
(the spec's end-to-end scenario A). -/
def witnessRunsA : List RunResult :=
  [{ runIndex := 1, tests := [mkT "f::t" Outcome.pass (mkRat 100 1) ""],
     err := none },
   { runIndex := 2,
     tests := [mkT "f::t" Outcome.fail (mkRat 100 1)
       "Request timed out waiting for response"],
     err := none },
   { runIndex := 3, tests := [mkT "f::t" Outcome.pass (mkRat 100 1) ""],
     err := none }]

/-- The single aggregate produced by `Aggregate witnessRunsA`. -/
def witnessAggA : AggregatedTest :=
  { testID := "f::t", passCount := 2, failCount := 1, skipCount := 0,
    totalRuns := 3, avgDuration := mkRat 100 1,
    classification := Classification.flaky, flakeRate := mkRat 1 3,
    wastedTime := mkRat 100 1,
    failureEvidence :=
      [{ runIndex := 2, excerpt := "Request timed out waiting for response",
         signature := FailureSignature.timeout }] }

/-- One run of three passing tests whose identities are deliberately out
of order (the spec's end-to-end scenario D). -/
def witnessRunsD : List RunResult :=
  [{ runIndex := 1,
     tests := [mkT "z::t" Outcome.pass 1 "", mkT "a::t" Outcome.pass 1 "",
       mkT "m::t" Outcome.pass 1 ""],
     err := none }]

/-- `passCount + failCount + skipCount` of the aggregator holding `id` in
the aggregator list (`0` when none does). -/
def tripleCount (id : String) : List TestAggregator → Nat
  | [] => 0
  | g :: gs =>
    if g.testID = id then g.passCount + g.failCount + g.skipCount
    else tripleCount id gs

/-- The closed signature set, in declaration order. -/
def allSignatures : List FailureSignature :=
  [FailureSignature.timeout, FailureSignature.selector,
   FailureSignature.network, FailureSignature.domDetach,
   FailureSignature.assertion, FailureSignature.unknown]

/-- The configuration of the spec's scenario C: ten runs with a timeout
that has elapsed when the check before run 5 happens. -/
def cfgC : RunnerConfig :=
  { runs := 10, timeout := 5, keepRuns := 0,
    command := ["npx", "jest"], hasAdapter := true }

/-- The environment of the spec's scenario C: the clock reads 0 before
runs 1–4 and 10 from run 5 on; nothing else goes wrong. -/
def envC : RunEnv :=
  { elapsed := fun i => if i ≤ 4 then 0 else 10,
    cancelled := fun _ => false,
    outDirOk := true,
    mkdirOk := fun _ => true,
    builtCommand := fun _ => ["npx", "jest"],
    stdoutOk := fun _ => true,
    stderrOk := fun _ => true,
    artifactExists := fun _ => true,
    parseResult := fun _ => Except.ok [],
    cleanupFails := false }

/-- What scenario C produces: exactly runs 1–4. -/
def resC : RunnerResult :=
  { runResults :=
      [{ runIndex := 1, tests := [], err := none },
       { runIndex := 2, tests := [], err := none },
       { runIndex := 3, tests := [], err := none },
       { runIndex := 4, tests := [], err := none }],
    runsExecuted := 4 }

/-- The environment of the all-errors scenario: every run's parse fails. -/
def envErr : RunEnv :=
  { elapsed := fun _ => 0,
    cancelled := fun _ => false,
    outDirOk := true,
    mkdirOk := fun _ => true,
    builtCommand := fun _ => ["npx", "jest"],
    stdoutOk := fun _ => true,
    stderrOk := fun _ => true,
    artifactExists := fun _ => true,
    parseResult := fun _ => Except.error "invalid JSON",
    cleanupFails := false }

/-- A three-run configuration for the all-errors scenario. -/
def cfgErr : RunnerConfig :=
  { runs := 3, timeout := 0, keepRuns := 0,
    command := ["npx", "jest"], hasAdapter := true }

/-- What the all-errors scenario produces: three error records. -/
def resErr : RunnerResult :=
  { runResults :=
      [{ runIndex := 1, tests := [],
         err := some "failed to parse run results: invalid JSON" },
       { runIndex := 2, tests := [],
         err := some "failed to parse run results: invalid JSON" },
       { runIndex := 3, tests := [],
         err := some "failed to parse run results: invalid JSON" }],
    runsExecuted := 3 }

/-- A decoded Jest output in which the identity `f.test.ts::dup` appears
twice in one run: first failed, then passed (a tool-level retry). -/
def jestDupOutput : JestOutput :=
  { testResults :=
      [{ name := "f.test.ts", status := "failed",
         assertionResults :=
           [{ fullName := "dup", status := "failed", title := "dup",
              duration := 1,
              failureMessages := ["AssertionError: expected"] },
            { fullName := "dup", status := "passed", title := "dup",
              duration := 1, failureMessages := [] }] }] }

/-- A cypress test case for the C8 witness. -/
def wTC (cls nm : String) (fails : Bool) : JUnitTestCase :=
  { name := nm, classname := cls, time := 1,
    failure := if fails then some ("boom", "") else none,
    fault := none, skipped := none }

/-- Two cypress artifact fragments: `b.cy.js::t` fails in the first and
passes in the second (a retry), `a.cy.js::t` passes. -/
def witnessFrags : List (List JUnitTestCase) :=
  [[wTC "b.cy.js" "t" true, wTC "a.cy.js" "t" false],
   [wTC "b.cy.js" "t" false]]

/-- What cypress `Parse` returns for `witnessFrags`: both identities once,
sorted, the retried one recorded from its last (passing) occurrence. -/
def wCyRes : RunResult :=
  { runIndex := 0,
    tests :=
      [{ testID := "a.cy.js::t", outcome := Outcome.pass,
         duration := (1000000000 : ℚ), failureMessage := "" },
       { testID := "b.cy.js::t", outcome := Outcome.pass,
         duration := (1000000000 : ℚ), failureMessage := "" }],
    err := none }

/-- A decoded Jest output whose assertions arrive out of identity order. -/
def witnessJestOut : JestOutput :=
  { testResults :=
      [{ name := "f.test.ts", status := "passed",
         assertionResults :=
           [{ fullName := "b", status := "passed", title := "b",
              duration := 2, failureMessages := [] },
            { fullName := "a", status := "passed", title := "a",
              duration := 3, failureMessages := [] }] }] }

/-- What jest `Parse` returns for `witnessJestOut`: sorted by identity. -/
def wJestRes : RunResult :=
  { runIndex := 0,
    tests :=
      [{ testID := "f.test.ts::a", outcome := Outcome.pass,
         duration := ((3 * 1000000 : Int) : ℚ), failureMessage := "" },
       { testID := "f.test.ts::b", outcome := Outcome.pass,
         duration := ((2 * 1000000 : Int) : ℚ), failureMessage := "" }],
    err := none }

/-! ## Helper lemmas -/

theorem exists_aggregator_of_mem {runs : List RunResult}
    {a : AggregatedTest} (ha : a ∈ Aggregate runs) :
    ∃ g ∈ runs.foldl processRun [],
      a = buildAggregatedTest g runs.length := by
  unfold Aggregate at ha
  by_cases h : runs.isEmpty
  · simp [h] at ha
  · rw [if_neg h] at ha
    unfold sortAggregatedTests at ha
    have hmem : a ∈ (runs.foldl processRun []).map
        (fun g => buildAggregatedTest g runs.length) :=
      (List.perm_insertionSort aggLE _).mem_iff.mp ha
    rcases List.mem_map.mp hmem with ⟨g, hg, rfl⟩
    exact ⟨g, hg, rfl⟩

theorem build_passCount (g : TestAggregator) (n : Nat) :
    (buildAggregatedTest g n).passCount = g.passCount := rfl

theorem build_failCount (g : TestAggregator) (n : Nat) :
    (buildAggregatedTest g n).failCount = g.failCount := rfl

theorem build_skipCount (g : TestAggregator) (n : Nat) :
    (buildAggregatedTest g n).skipCount = g.skipCount := rfl

theorem build_totalRuns (g : TestAggregator) (n : Nat) :
    (buildAggregatedTest g n).totalRuns = g.passCount + g.failCount := rfl

theorem build_classification (g : TestAggregator) (n : Nat) :
    (buildAggregatedTest g n).classification =
      classify g.passCount g.failCount (g.passCount + g.failCount) := rfl

theorem classify_cases (p f : Nat) :
    (classify p f (p + f) = Classification.flaky ↔ 1 ≤ p ∧ 1 ≤ f) ∧
    (classify p f (p + f) = Classification.deterministicFail ↔
      f = p + f ∧ 0 < p + f) ∧
    (classify p f (p + f) = Classification.stable ↔
      ¬(1 ≤ p ∧ 1 ≤ f) ∧ ¬(f = p + f ∧ 0 < p + f)) := by
  unfold classify
  split_ifs with h0 h1 h2
  · exact ⟨⟨fun h => absurd h (by decide), fun hc => absurd hc (by omega)⟩,
      ⟨fun h => absurd h (by decide), fun hc => absurd hc (by omega)⟩,
      ⟨fun _ => by omega, fun _ => rfl⟩⟩
  · exact ⟨⟨fun _ => h1, fun _ => rfl⟩,
      ⟨fun h => absurd h (by decide), fun hc => absurd hc (by omega)⟩,
      ⟨fun h => absurd h (by decide), fun hc => absurd h1 hc.1⟩⟩
  · exact ⟨⟨fun h => absurd h (by decide), fun hc => absurd hc (by omega)⟩,
      ⟨fun _ => ⟨h2, by omega⟩, fun _ => rfl⟩,
      ⟨fun h => absurd h (by decide),
        fun hc => absurd (⟨h2, by omega⟩ : _ ∧ _) hc.2⟩⟩
  · exact ⟨⟨fun h => absurd h (by decide), fun hc => absurd hc h1⟩,
      ⟨fun h => absurd h (by decide), fun hc => absurd hc.1 h2⟩,
      ⟨fun _ => ⟨h1, fun hc => h2 hc.1⟩, fun _ => rfl⟩⟩

/-! ## C1: classification is total and mutually exclusive -/

/-- C1.  For every `TestAggregate` produced by aggregation, exactly one of
{Flaky, Stable, DeterministicFail} is assigned: Flaky iff `passCount ≥ 1`
and `failCount ≥ 1`; DeterministicFail iff `failCount` equals the non-skip
run total (`totalRuns = passCount + failCount`) and that total is positive;
Stable in exactly the remaining cases, which include the all-skipped case
`totalRuns = 0`. -/
theorem C1_classification_partition (runs : List RunResult)
    (a : AggregatedTest) (ha : a ∈ Aggregate runs) :
    a.totalRuns = a.passCount + a.failCount ∧
    (a.classification = Classification.flaky ↔
      1 ≤ a.passCount ∧ 1 ≤ a.failCount) ∧
    (a.classification = Classification.deterministicFail ↔
      a.failCount = a.totalRuns ∧ 0 < a.totalRuns) ∧
    (a.classification = Classification.stable ↔
      ¬(1 ≤ a.passCount ∧ 1 ≤ a.failCount) ∧
        ¬(a.failCount = a.totalRuns ∧ 0 < a.totalRuns)) := by
  rcases exists_aggregator_of_mem ha with ⟨g, _, rfl⟩
  rw [build_passCount, build_failCount, build_totalRuns,
    build_classification]
  exact ⟨rfl, classify_cases g.passCount g.failCount⟩

/-! ## The sort comparator as a linear-order key (for C3) -/

theorem aggLess_iff (a b : AggregatedTest) :
    aggLess a b ↔ sortKey a < sortKey b := by
  unfold aggLess sortKey
  simp only [Prod.Lex.lt_iff, OrderDual.toDual_lt_toDual,
    OrderDual.toDual_inj, strLT_iff, gt_iff_lt, Prod.mk.injEq]

theorem aggLE_iff (a b : AggregatedTest) :
    aggLE a b ↔ sortKey a ≤ sortKey b := by
  unfold aggLE
  rw [aggLess_iff, not_lt]

instance : IsTrans AggregatedTest aggLE :=
  ⟨fun a b c hab hbc => (aggLE_iff a c).mpr
    (le_trans ((aggLE_iff a b).mp hab) ((aggLE_iff b c).mp hbc))⟩

instance : IsTotal AggregatedTest aggLE :=
  ⟨fun a b => (le_total (sortKey a) (sortKey b)).imp
    (aggLE_iff a b).mpr (aggLE_iff b a).mpr⟩

theorem sortKey_eq_components {a b : AggregatedTest}
    (h : sortKey a = sortKey b) :
    a.testID = b.testID ∧ a.wastedTime = b.wastedTime ∧
      a.flakeRate = b.flakeRate ∧ a.failCount = b.failCount := by
  unfold sortKey at h
  simp only [toLex_inj, Prod.mk.injEq, OrderDual.toDual_inj] at h
  exact ⟨h.2.2.2, h.1, h.2.1, h.2.2.1⟩

theorem sorted_perm_nodup_eq :
    ∀ {l₁ l₂ : List AggregatedTest}, l₁.Perm l₂ → l₁.Sorted aggLE →
      l₂.Sorted aggLE → (l₁.map (fun x => x.testID)).Nodup → l₁ = l₂ := by
  intro l₁
  induction l₁ with
  | nil =>
    intro l₂ hp _ _ _
    exact (hp.nil_eq).symm ▸ rfl
  | cons a t ih =>
    intro l₂ hp hs₁ hs₂ hnd
    cases l₂ with
    | nil => exact absurd hp.symm.nil_eq (by simp)
    | cons b t₂ =>
      have hbmem : b ∈ a :: t := hp.symm.subset (List.mem_cons_self b t₂)
      have hamem : a ∈ b :: t₂ := hp.subset (List.mem_cons_self a t)
      have hab : a = b := by
        by_contra hne
        have h1 : aggLE a b := by
          rcases List.mem_cons.mp hbmem with h | hbt
          · exact absurd h.symm hne
          · exact (List.sorted_cons.mp hs₁).1 b hbt
        have h2 : aggLE b a := by
          rcases List.mem_cons.mp hamem with h | hat
          · exact absurd h hne
          · exact (List.sorted_cons.mp hs₂).1 a hat
        have hk : sortKey a = sortKey b :=
          le_antisymm ((aggLE_iff a b).mp h1) ((aggLE_iff b a).mp h2)
        have hid : a.testID = b.testID := (sortKey_eq_components hk).1
        rcases List.mem_cons.mp hbmem with h | hbt
        · exact hne h.symm
        · have : a.testID ∈ t.map (fun x => x.testID) :=
            hid ▸ List.mem_map_of_mem _ hbt
          rw [List.map_cons] at hnd
          exact (List.nodup_cons.mp hnd).1 this
      subst hab
      have hp' : t.Perm t₂ := hp.cons_inv
      rw [List.map_cons] at hnd
      rw [ih hp' (List.sorted_cons.mp hs₁).2 (List.sorted_cons.mp hs₂).2
        (List.nodup_cons.mp hnd).2]

/-! ## C2: the wasted-time metric -/

theorem classify_flaky_pos {p f : Nat}
    (h : classify p f (p + f) = Classification.flaky) : 0 < p + f := by
  by_contra hc
  have h0 : p + f = 0 := by omega
  unfold classify at h
  rw [if_pos h0] at h
  exact absurd h (by decide)

/-- C2.  For every aggregate produced by aggregation: when the
classification is Flaky, `wastedTime = flakeRate × avgDuration × N` with
`N` the length of the run list given to aggregation; every non-Flaky
aggregate carries `wastedTime = 0`; and `flakeRate` is
`failCount / (passCount + failCount)`, taken as `0` when that denominator
is `0`. -/
theorem C2_wastedTime_spec (runs : List RunResult) (a : AggregatedTest)
    (ha : a ∈ Aggregate runs) :
    (a.classification = Classification.flaky →
      a.wastedTime = a.flakeRate * a.avgDuration * (runs.length : ℚ)) ∧
    (a.classification ≠ Classification.flaky → a.wastedTime = 0) ∧
    a.flakeRate =
      (if a.passCount + a.failCount = 0 then 0
       else (a.failCount : ℚ) / ((a.passCount + a.failCount : ℕ) : ℚ)) := by
  rcases exists_aggregator_of_mem ha with ⟨g, _, rfl⟩
  set n := runs.length with hn
  have hcls : (buildAggregatedTest g n).classification =
      classify g.passCount g.failCount (g.passCount + g.failCount) := rfl
  have hw : (buildAggregatedTest g n).wastedTime =
      (if classify g.passCount g.failCount (g.passCount + g.failCount) =
            Classification.flaky ∧ 0 < g.passCount + g.failCount
       then qmul (qmul (buildAggregatedTest g n).flakeRate
         ((buildAggregatedTest g n).avgDuration)) (n : ℚ)
       else 0) := rfl
  have hfr : (buildAggregatedTest g n).flakeRate =
      (if 0 < g.passCount + g.failCount
       then qdiv (g.failCount : ℚ) ((g.passCount + g.failCount : ℕ) : ℚ)
       else 0) := rfl
  refine ⟨?_, ?_, ?_⟩
  · intro hfl
    rw [hcls] at hfl
    rw [hw, if_pos ⟨hfl, classify_flaky_pos hfl⟩, qmul_eq, qmul_eq]
  · intro hnfl
    rw [hcls] at hnfl
    rw [hw, if_neg]
    rintro ⟨h1, _⟩
    exact hnfl h1
  · rw [build_passCount, build_failCount, hfr]
    by_cases hz : g.passCount + g.failCount = 0
    · rw [if_neg (by omega), if_pos hz]
    · rw [if_pos (by omega), if_neg hz,
        qdiv_natCast _ (g.passCount + g.failCount) hz]

/-- Witness for C2 at the concrete scenario-A input. -/
theorem C2_witness :
    witnessAggA ∈ Aggregate witnessRunsA ∧
    ((witnessAggA.classification = Classification.flaky →
      witnessAggA.wastedTime = witnessAggA.flakeRate *
        witnessAggA.avgDuration * (witnessRunsA.length : ℚ)) ∧
    (witnessAggA.classification ≠ Classification.flaky →
      witnessAggA.wastedTime = 0) ∧
    witnessAggA.flakeRate =
      (if witnessAggA.passCount + witnessAggA.failCount = 0 then 0
       else (witnessAggA.failCount : ℚ) /
         ((witnessAggA.passCount + witnessAggA.failCount : ℕ) : ℚ))) :=
  ⟨by decide, C2_wastedTime_spec witnessRunsA witnessAggA (by decide)⟩

/-! ## C3: deterministic total ordering of the result list -/

/-- C3.  The aggregated result list is sorted by the comparator `aggLE`
(`wastedTime` descending, `flakeRate` descending, `failCount` descending,
`TestIdentity` ascending); that comparator is total, and any two sorted
permutations of aggregates with pairwise distinct identities coincide, so
the output ordering is uniquely determined by its content; on the spec's
scenario D (three tests with equal metrics named `z::t`, `a::t`, `m::t`)
the output order is `a::t, m::t, z::t`. -/
theorem C3_deterministic_order (runs : List RunResult) :
    (Aggregate runs).Sorted aggLE ∧
    (∀ a b : AggregatedTest, aggLE a b ∨ aggLE b a) ∧
    (∀ l₁ l₂ : List AggregatedTest, l₁.Perm l₂ → l₁.Sorted aggLE →
      l₂.Sorted aggLE → (l₁.map (fun x => x.testID)).Nodup → l₁ = l₂) ∧
    (Aggregate witnessRunsD).map (fun a => a.testID) =
      ["a::t", "m::t", "z::t"] := by
  refine ⟨?_, fun a b => IsTotal.total a b,
    fun _ _ => sorted_perm_nodup_eq, by decide⟩
  unfold Aggregate
  by_cases h : runs.isEmpty
  · rw [if_pos h]
    exact List.sorted_nil
  · rw [if_neg h]
    exact List.sorted_insertionSort aggLE _

/-! ## C4: signature detection priority -/

/-- C4.  Signature detection maps any failure message to exactly one
signature by the fixed rule order Timeout, Selector, Network, DomDetach,
Assertion, first match winning; the empty message and a message matching no
pattern yield Unknown; the message `"expect(response).timeout exceeded"`
matches both a Timeout cue and an Assertion cue and resolves to Timeout. -/
theorem C4_signature_priority :
    DetectSignature "" = FailureSignature.unknown ∧
    (∀ msg : String, msg ≠ "" → DetectSignature msg =
      (if anyMatch timeoutPats msg then FailureSignature.timeout
       else if anyMatch selectorPats msg then FailureSignature.selector
       else if anyMatch networkPats msg then FailureSignature.network
       else if anyMatch domDetachPats msg then FailureSignature.domDetach
       else if anyMatch assertionPats msg then FailureSignature.assertion
       else FailureSignature.unknown)) ∧
    (anyMatch timeoutPats "expect(response).timeout exceeded" = true ∧
     anyMatch assertionPats "expect(response).timeout exceeded" = true ∧
     DetectSignature "expect(response).timeout exceeded" =
       FailureSignature.timeout) ∧
    (∀ msg : String, anyMatch timeoutPats msg = false →
      anyMatch selectorPats msg = false →
      anyMatch networkPats msg = false →
      anyMatch domDetachPats msg = false →
      anyMatch assertionPats msg = false →
      DetectSignature msg = FailureSignature.unknown) := by
  refine ⟨by decide, ?_, by decide, ?_⟩
  · intro msg hm
    unfold DetectSignature
    rw [if_neg hm]
    rfl
  · intro msg h1 h2 h3 h4 h5
    by_cases hm : msg = ""
    · rw [hm]
      rfl
    · unfold DetectSignature
      rw [if_neg hm]
      simp only [signaturePatterns, firstMatching, h1, h2, h3, h4, h5,
        Bool.false_eq_true, if_false]

/-! ## C5: the per-identity count invariant -/


theorem applyOutcome_testID (ri : Nat) (t : TestResult)
    (g : TestAggregator) : (applyOutcome ri t g).testID = g.testID := by
  cases ho : t.outcome <;> simp [applyOutcome, ho]

theorem applyOutcome_triple (ri : Nat) (t : TestResult)
    (g : TestAggregator) :
    (applyOutcome ri t g).passCount + (applyOutcome ri t g).failCount +
        (applyOutcome ri t g).skipCount =
      g.passCount + g.failCount + g.skipCount + 1 := by
  cases ho : t.outcome <;> simp [applyOutcome, ho] <;> omega

theorem tripleCount_processTest (id : String) (ri : Nat) (t : TestResult) :
    ∀ gs : List TestAggregator,
      tripleCount id (processTest ri t gs) =
        tripleCount id gs + (if t.testID = id then 1 else 0) := by
  intro gs
  induction gs with
  | nil =>
    show tripleCount id [applyOutcome ri t (newAggregator t.testID)] = _
    unfold tripleCount
    rw [applyOutcome_testID]
    simp only [newAggregator]
    by_cases h : t.testID = id
    · rw [if_pos h, if_pos h, applyOutcome_triple]
      rfl
    · rw [if_neg h, if_neg h]
      rfl
  | cons g gs ih =>
    unfold processTest
    by_cases hg : g.testID = t.testID
    · rw [if_pos hg]
      unfold tripleCount
      rw [applyOutcome_testID]
      by_cases h : g.testID = id
      · rw [if_pos h, if_pos h, applyOutcome_triple,
          if_pos (hg ▸ h : t.testID = id)]
      · rw [if_neg h, if_neg h, if_neg (hg ▸ h : ¬t.testID = id)]
        omega
    · rw [if_neg hg]
      unfold tripleCount
      by_cases h : g.testID = id
      · rw [if_pos h, if_pos h,
          if_neg (fun ht => hg (h.trans ht.symm))]
        omega
      · rw [if_neg h, if_neg h, ih]

theorem tripleCount_foldl_tests (id : String) (ri : Nat) :
    ∀ (ts : List TestResult) (gs : List TestAggregator),
      tripleCount id (ts.foldl (fun acc t => processTest ri t acc) gs) =
        tripleCount id gs +
          ts.countP (fun t => decide (t.testID = id)) := by
  intro ts
  induction ts with
  | nil => intro gs; simp
  | cons t ts ih =>
    intro gs
    rw [List.foldl_cons, ih, tripleCount_processTest,
      List.countP_cons]
    by_cases h : t.testID = id
    · rw [if_pos h]
      simp [h]
      omega
    · rw [if_neg h]
      simp [h]

theorem tripleCount_foldl_runs (id : String) :
    ∀ (runs : List RunResult) (gs : List TestAggregator),
      tripleCount id (runs.foldl processRun gs) =
        tripleCount id gs +
          (runs.map (fun r =>
            r.tests.countP (fun t => decide (t.testID = id)))).sum := by
  intro runs
  induction runs with
  | nil => intro gs; simp
  | cons r runs ih =>
    intro gs
    rw [List.foldl_cons, ih]
    unfold processRun
    rw [tripleCount_foldl_tests]
    simp
    omega

theorem processTest_map_testID (ri : Nat) (t : TestResult) :
    ∀ gs : List TestAggregator,
      (processTest ri t gs).map (fun g => g.testID) =
        (if t.testID ∈ gs.map (fun g => g.testID)
         then gs.map (fun g => g.testID)
         else gs.map (fun g => g.testID) ++ [t.testID]) := by
  intro gs
  induction gs with
  | nil =>
    simp [processTest, applyOutcome_testID, newAggregator]
  | cons g gs ih =>
    unfold processTest
    by_cases hg : g.testID = t.testID
    · rw [if_pos hg, List.map_cons, List.map_cons, applyOutcome_testID,
        if_pos (by rw [hg]; exact List.mem_cons_self _ _)]
    · rw [if_neg hg, List.map_cons, ih, List.map_cons]
      by_cases hm : t.testID ∈ gs.map (fun g => g.testID)
      · rw [if_pos hm, if_pos (List.mem_cons_of_mem _ hm)]
      · rw [if_neg hm,
          if_neg (by
            rw [List.mem_cons]
            rintro (h | h)
            · exact hg h.symm
            · exact hm h), List.cons_append]

theorem processTest_nodup (ri : Nat) (t : TestResult)
    (gs : List TestAggregator)
    (h : (gs.map (fun g => g.testID)).Nodup) :
    ((processTest ri t gs).map (fun g => g.testID)).Nodup := by
  rw [processTest_map_testID]
  by_cases hm : t.testID ∈ gs.map (fun g => g.testID)
  · rw [if_pos hm]
    exact h
  · rw [if_neg hm]
    exact h.append (List.nodup_singleton _)
      (fun x hx hx2 => hm ((List.mem_singleton.mp hx2) ▸ hx))

theorem foldl_tests_nodup (ri : Nat) :
    ∀ (ts : List TestResult) (gs : List TestAggregator),
      (gs.map (fun g => g.testID)).Nodup →
      (((ts.foldl (fun acc t => processTest ri t acc) gs)).map
        (fun g => g.testID)).Nodup := by
  intro ts
  induction ts with
  | nil => intro gs h; exact h
  | cons t ts ih =>
    intro gs h
    rw [List.foldl_cons]
    exact ih _ (processTest_nodup ri t gs h)

theorem foldl_runs_nodup :
    ∀ (runs : List RunResult) (gs : List TestAggregator),
      (gs.map (fun g => g.testID)).Nodup →
      ((runs.foldl processRun gs).map (fun g => g.testID)).Nodup := by
  intro runs
  induction runs with
  | nil => intro gs h; exact h
  | cons r runs ih =>
    intro gs h
    rw [List.foldl_cons]
    exact ih _ (foldl_tests_nodup r.runIndex r.tests gs h)

theorem tripleCount_of_mem (g : TestAggregator) :
    ∀ gs : List TestAggregator, (gs.map (fun x => x.testID)).Nodup →
      g ∈ gs → tripleCount g.testID gs =
        g.passCount + g.failCount + g.skipCount := by
  intro gs
  induction gs with
  | nil => intro _ h; exact absurd h (List.not_mem_nil g)
  | cons g' gs ih =>
    intro hnd hmem
    unfold tripleCount
    rcases List.mem_cons.mp hmem with rfl | hmem'
    · rw [if_pos rfl]
    · by_cases he : g'.testID = g.testID
      · exfalso
        rw [List.map_cons] at hnd
        exact (List.nodup_cons.mp hnd).1
          (he ▸ List.mem_map_of_mem _ hmem')
      · rw [if_neg he]
        rw [List.map_cons] at hnd
        exact ih (List.nodup_cons.mp hnd).2 hmem'

theorem countP_eq_ite_of_nodup (id : String) :
    ∀ l : List String, l.Nodup →
      l.countP (fun s => decide (s = id)) = if id ∈ l then 1 else 0 := by
  intro l
  induction l with
  | nil => intro _; rfl
  | cons s l ih =>
    intro hnd
    rw [List.countP_cons, ih (List.nodup_cons.mp hnd).2]
    simp only [decide_eq_true_eq]
    by_cases he : id = s
    · subst he
      have hnl : id ∉ l := (List.nodup_cons.mp hnd).1
      rw [if_neg hnl, if_pos rfl, if_pos (List.mem_cons_self id l)]
    · rw [if_neg (fun h : s = id => he h.symm)]
      by_cases hm : id ∈ l
      · rw [if_pos hm, if_pos (List.mem_cons_of_mem _ hm)]
      · rw [if_neg hm, if_neg (by
          rw [List.mem_cons]
          rintro (h | h)
          · exact he h
          · exact hm h)]

theorem sum_map_ite_eq_countP (p : RunResult → Prop) [DecidablePred p] :
    ∀ runs : List RunResult,
      (runs.map (fun r => if p r then 1 else 0)).sum =
        runs.countP (fun r => decide (p r)) := by
  intro runs
  induction runs with
  | nil => rfl
  | cons r runs ih =>
    rw [List.map_cons, List.sum_cons, ih, List.countP_cons]
    by_cases h : p r
    · simp [h]
      omega
    · simp [h]

/-- C5.  For every input run list in which each run's test list carries
pairwise distinct identities (`RunRecord` is a set of per-identity tuples),
and for every aggregate it produces,
`passCount + failCount + skipCount` equals the number of runs in which the
aggregate's identity appeared. -/
theorem C5_count_invariant (runs : List RunResult)
    (hwf : ∀ r ∈ runs, (r.tests.map (fun t => t.testID)).Nodup)
    (a : AggregatedTest) (ha : a ∈ Aggregate runs) :
    a.passCount + a.failCount + a.skipCount =
      runs.countP
        (fun r => decide (a.testID ∈ r.tests.map (fun t => t.testID))) := by
  rcases exists_aggregator_of_mem ha with ⟨g, hg, rfl⟩
  rw [build_passCount, build_failCount, build_skipCount]
  have hid : (buildAggregatedTest g runs.length).testID = g.testID := rfl
  rw [hid]
  have hnd : ((runs.foldl processRun []).map (fun x => x.testID)).Nodup :=
    foldl_runs_nodup runs [] (by simp)
  have h1 := tripleCount_of_mem g (runs.foldl processRun []) hnd hg
  have h2 := tripleCount_foldl_runs g.testID runs []
  have h3 : ∀ r ∈ runs,
      r.tests.countP (fun t => decide (t.testID = g.testID)) =
        if g.testID ∈ r.tests.map (fun t => t.testID) then 1 else 0 := by
    intro r hr
    rw [← countP_eq_ite_of_nodup g.testID _ (hwf r hr)]
    exact (List.countP_map (fun s => decide (s = g.testID))
      (fun t : TestResult => t.testID) r.tests).symm
  have h4 : (runs.map (fun r =>
      r.tests.countP (fun t => decide (t.testID = g.testID)))).sum =
      (runs.map (fun r =>
        if g.testID ∈ r.tests.map (fun t => t.testID) then 1
        else 0)).sum := by
    rw [List.map_congr_left h3]
  have h0 : tripleCount g.testID ([] : List TestAggregator) = 0 := rfl
  rw [← h1, h2, h0, Nat.zero_add, h4,
    sum_map_ite_eq_countP (fun r => g.testID ∈ r.tests.map
      (fun t => t.testID)) runs]

/-- Witness for C5 at the concrete scenario-A input. -/
theorem C5_witness :
    (∀ r ∈ witnessRunsA, (r.tests.map (fun t => t.testID)).Nodup) ∧
    witnessAggA ∈ Aggregate witnessRunsA ∧
    witnessAggA.passCount + witnessAggA.failCount + witnessAggA.skipCount =
      witnessRunsA.countP (fun r =>
        decide (witnessAggA.testID ∈ r.tests.map (fun t => t.testID))) :=
  ⟨by decide, by decide,
    C5_count_invariant witnessRunsA (by decide) witnessAggA (by decide)⟩

/-! ## C10: the signature summary is conservative over failures -/


theorem sum_countP_signatures (l : List FailureEvidence) :
    (allSignatures.map (fun sig =>
      l.countP (fun ev => decide (ev.signature = sig)))).sum = l.length := by
  induction l with
  | nil => rfl
  | cons e l ih =>
    have hc := ih
    simp only [allSignatures, List.map_cons, List.map_nil, List.sum_cons,
      List.sum_nil, List.countP_cons] at hc ⊢
    cases he : e.signature <;> simp [he] <;> omega

theorem applyOutcome_evLen (ri : Nat) (t : TestResult)
    (g : TestAggregator)
    (h : g.failureEvidence.length = g.failCount) :
    (applyOutcome ri t g).failureEvidence.length =
      (applyOutcome ri t g).failCount := by
  cases ho : t.outcome <;> simp [applyOutcome, ho, h]

theorem processTest_evLen (ri : Nat) (t : TestResult) :
    ∀ gs : List TestAggregator,
      (∀ g ∈ gs, g.failureEvidence.length = g.failCount) →
      ∀ g' ∈ processTest ri t gs,
        g'.failureEvidence.length = g'.failCount := by
  intro gs
  induction gs with
  | nil =>
    intro _ g' hg'
    rcases List.mem_singleton.mp hg' with rfl
    exact applyOutcome_evLen ri t _ rfl
  | cons g gs ih =>
    intro h g' hg'
    unfold processTest at hg'
    by_cases hg : g.testID = t.testID
    · rw [if_pos hg] at hg'
      rcases List.mem_cons.mp hg' with rfl | hmem
      · exact applyOutcome_evLen ri t g (h g (List.mem_cons_self g gs))
      · exact h g' (List.mem_cons_of_mem _ hmem)
    · rw [if_neg hg] at hg'
      rcases List.mem_cons.mp hg' with rfl | hmem
      · exact h g' (List.mem_cons_self g' gs)
      · exact ih (fun x hx => h x (List.mem_cons_of_mem _ hx)) g' hmem

theorem foldl_tests_evLen (ri : Nat) :
    ∀ (ts : List TestResult) (gs : List TestAggregator),
      (∀ g ∈ gs, g.failureEvidence.length = g.failCount) →
      ∀ g' ∈ ts.foldl (fun acc t => processTest ri t acc) gs,
        g'.failureEvidence.length = g'.failCount := by
  intro ts
  induction ts with
  | nil => intro gs h; exact h
  | cons t ts ih =>
    intro gs h
    rw [List.foldl_cons]
    exact ih _ (processTest_evLen ri t gs h)

theorem foldl_runs_evLen :
    ∀ (runs : List RunResult) (gs : List TestAggregator),
      (∀ g ∈ gs, g.failureEvidence.length = g.failCount) →
      ∀ g' ∈ runs.foldl processRun gs,
        g'.failureEvidence.length = g'.failCount := by
  intro runs
  induction runs with
  | nil => intro gs h; exact h
  | cons r runs ih =>
    intro gs h
    rw [List.foldl_cons]
    exact ih _ (foldl_tests_evLen r.runIndex r.tests gs h)

theorem aggregate_evLen (runs : List RunResult) :
    ∀ a ∈ Aggregate runs, a.failureEvidence.length = a.failCount := by
  intro a ha
  rcases exists_aggregator_of_mem ha with ⟨g, hg, rfl⟩
  have hlen : (buildAggregatedTest g runs.length).failureEvidence.length =
      g.failureEvidence.length :=
    (List.perm_insertionSort evidenceLE g.failureEvidence).length_eq
  rw [hlen, build_failCount]
  exact foldl_runs_evLen runs [] (by simp) g hg

theorem summary_sum_eq_evidence_total :
    ∀ tests : List AggregatedTest,
      (allSignatures.map (fun sig => SignatureSummary tests sig)).sum =
        (tests.map (fun a => a.failureEvidence.length)).sum := by
  intro tests
  induction tests with
  | nil => rfl
  | cons t ts ih =>
    have hc := sum_countP_signatures t.failureEvidence
    simp only [allSignatures, SignatureSummary, List.map_cons,
      List.map_nil, List.sum_cons, List.sum_nil] at hc ih ⊢
    omega

/-- C10.  For every aggregated list produced by `Aggregate`, the sum of the
per-signature counts of `SignatureSummary` equals the total number of
`FailureEvidence` entries across all tests, which equals the sum of
`failCount` over all tests. -/
theorem C10_signature_summary_conservation (runs : List RunResult) :
    (allSignatures.map
      (fun sig => SignatureSummary (Aggregate runs) sig)).sum =
        ((Aggregate runs).map (fun a => a.failureEvidence.length)).sum ∧
    ((Aggregate runs).map (fun a => a.failureEvidence.length)).sum =
      ((Aggregate runs).map (fun a => a.failCount)).sum := by
  refine ⟨summary_sum_eq_evidence_total (Aggregate runs), ?_⟩
  rw [List.map_congr_left (fun a ha => aggregate_evLen runs a ha)]

/-! ## C6: no run starts after timeout or cancellation -/

theorem executeRun_ok_runIndex (env : RunEnv) (i : Nat) (r : RunResult)
    (h : executeRun env i = Except.ok r) : r.runIndex = i := by
  unfold executeRun at h
  split at h
  · exact Except.noConfusion h
  split at h
  · exact Except.noConfusion h
  split at h
  · exact Except.noConfusion h
  split at h
  · exact Except.noConfusion h
  split at h
  · exact Except.noConfusion h
  · cases h
    rfl

theorem recordRun_runIndex (env : RunEnv) (i : Nat) :
    (recordRun env i).runIndex = i := by
  unfold recordRun
  cases h : executeRun env i with
  | ok r => exact executeRun_ok_runIndex env i r h
  | error e => rfl

theorem runLoop_ok_spec (cfg : RunnerConfig) (env : RunEnv) :
    ∀ (rem i : Nat) (rs : List RunResult),
      runLoop cfg env i rem = Except.ok rs →
      ∃ k, k ≤ rem ∧ rs.length = k ∧
        rs.map (fun r => r.runIndex) = List.range' i k ∧
        (∀ r ∈ rs, r = recordRun env r.runIndex) ∧
        (∀ j, i ≤ j → j < i + k → stopCheck cfg env j = false) ∧
        (k < rem → stopCheck cfg env (i + k) = true) := by
  intro rem
  induction rem with
  | zero =>
    intro i rs h
    unfold runLoop at h
    cases h
    exact ⟨0, le_rfl, rfl, rfl, by simp,
      fun j h1 h2 => absurd h2 (by omega), fun hx => absurd hx (by omega)⟩
  | succ rem ih =>
    intro i rs h
    unfold runLoop at h
    by_cases hstop : stopCheck cfg env i
    · rw [if_pos hstop] at h
      cases h
      exact ⟨0, by omega, rfl, rfl, by simp,
        fun j h1 h2 => absurd h2 (by omega),
        fun _ => by rw [Nat.add_zero]; exact hstop⟩
    · have hstop' : stopCheck cfg env i = false := by
        simpa using hstop
      rw [if_neg hstop] at h
      by_cases hmk : env.mkdirOk i
      · rw [if_neg (by simp [hmk])] at h
        cases hrec : runLoop cfg env (i + 1) rem with
        | error e =>
          rw [hrec] at h
          exact Except.noConfusion h
        | ok rest =>
          rw [hrec] at h
          cases h
          rcases ih (i + 1) rest hrec with
            ⟨k, hk, hlen, hmap, hrecs, hstops, hnext⟩
          refine ⟨k + 1, by omega, by simp [hlen], ?_, ?_, ?_, ?_⟩
          · rw [List.map_cons, hmap, recordRun_runIndex, List.range'_succ]
          · intro r hr
            rcases List.mem_cons.mp hr with rfl | hr'
            · rw [recordRun_runIndex]
            · exact hrecs r hr'
          · intro j h1 h2
            rcases Nat.eq_or_lt_of_le h1 with rfl | hlt
            · exact hstop'
            · exact hstops j (by omega) (by omega)
          · intro hlt
            have hkr : k < rem := by omega
            have := hnext hkr
            rw [show i + (k + 1) = (i + 1) + k by omega]
            exact this
      · rw [if_pos (by simp [hmk])] at h
        exact Except.noConfusion h

theorem Run_ok_destruct (cfg : RunnerConfig) (env : RunEnv)
    (res : RunnerResult) (h : Run cfg env = Except.ok res) :
    runLoop cfg env 1 cfg.runs.toNat = Except.ok res.runResults ∧
      res.runsExecuted = res.runResults.length := by
  unfold Run at h
  split_ifs at h
  cases hloop : runLoop cfg env 1 cfg.runs.toNat with
  | error e =>
    rw [hloop] at h
    exact Except.noConfusion h
  | ok rs =>
    rw [hloop] at h
    cases h
    exact ⟨rfl, rfl⟩

/-- C6.  For every successful session, the executed run indices are exactly
`1..k` for some `k ≤ N`: the pre-run check (timeout elapsed or cancellation
requested) is false before each executed run, and when the session stopped
short of the configured `N`, the check was true before run `k+1`;
`RunsExecuted` reports exactly the `k` completed runs. -/
theorem C6_stop_semantics (cfg : RunnerConfig) (env : RunEnv)
    (res : RunnerResult) (h : Run cfg env = Except.ok res) :
    ∃ k, res.runsExecuted = k ∧ k ≤ cfg.runs.toNat ∧
      res.runResults.length = k ∧
      res.runResults.map (fun r => r.runIndex) = List.range' 1 k ∧
      (∀ j, 1 ≤ j → j ≤ k → stopCheck cfg env j = false) ∧
      (k < cfg.runs.toNat → stopCheck cfg env (k + 1) = true) := by
  rcases Run_ok_destruct cfg env res h with ⟨hloop, hexec⟩
  rcases runLoop_ok_spec cfg env cfg.runs.toNat 1 res.runResults hloop with
    ⟨k, hk, hlen, hmap, _, hstops, hnext⟩
  refine ⟨k, by rw [hexec, hlen], hk, hlen, hmap, ?_, ?_⟩
  · intro j h1 h2
    exact hstops j h1 (by omega)
  · intro hlt
    have := hnext hlt
    rw [show 1 + k = k + 1 by omega] at this
    exact this




/-- Witness for C6 at the scenario-C input: the session executes exactly
runs 1–4 of the configured 10. -/
theorem C6_witness :
    Run cfgC envC = Except.ok resC ∧ resC.runsExecuted = 4 ∧
    (∃ k, resC.runsExecuted = k ∧ k ≤ cfgC.runs.toNat ∧
      resC.runResults.length = k ∧
      resC.runResults.map (fun r => r.runIndex) = List.range' 1 k ∧
      (∀ j, 1 ≤ j → j ≤ k → stopCheck cfgC envC j = false) ∧
      (k < cfgC.runs.toNat → stopCheck cfgC envC (k + 1) = true)) :=
  ⟨by decide, by decide, C6_stop_semantics cfgC envC resC (by decide)⟩

/-! ## C7: per-run errors are recorded, never fatal -/

theorem foldl_processRun_empty :
    ∀ (runs : List RunResult) (gs : List TestAggregator),
      (∀ r ∈ runs, r.tests = []) → runs.foldl processRun gs = gs := by
  intro runs
  induction runs with
  | nil => intro gs _; rfl
  | cons r runs ih =>
    intro gs h
    rw [List.foldl_cons]
    have hr : r.tests = [] := h r (List.mem_cons_self r runs)
    unfold processRun
    rw [hr, List.foldl_nil]
    exact ih gs (fun x hx => h x (List.mem_cons_of_mem _ hx))

theorem aggregate_all_empty (runs : List RunResult)
    (h : ∀ r ∈ runs, r.tests = []) : Aggregate runs = [] := by
  unfold Aggregate
  by_cases he : runs.isEmpty
  · rw [if_pos he]
  · rw [if_neg he, foldl_processRun_empty runs [] h]
    rfl

/-- C7.  Every run slot of a successful session holds exactly what
`recordRun` produces for its index: the parsed record on success, a record
with the error string and no test data when execution setup fails, the
artifact is missing, or parsing fails — each of those conditions makes
`executeRun` fail, and the loop still stores a record and continues, as the
C6 index characterization shows.  A session whose runs all produced no
test data still aggregates to the empty report rather than failing. -/
theorem C7_errors_recovered (cfg : RunnerConfig) (env : RunEnv)
    (res : RunnerResult) (h : Run cfg env = Except.ok res) :
    (∀ r ∈ res.runResults, r = recordRun env r.runIndex) ∧
    (∀ i, ((env.builtCommand i).isEmpty = true ∨ env.stdoutOk i = false ∨
        env.stderrOk i = false ∨ env.artifactExists i = false ∨
        (∃ e, env.parseResult i = Except.error e)) →
      ∃ e, executeRun env i = Except.error e ∧
        recordRun env i = { runIndex := i, tests := [], err := some e }) ∧
    (∀ runs : List RunResult, (∀ r ∈ runs, r.tests = []) →
      Aggregate runs = []) := by
  rcases Run_ok_destruct cfg env res h with ⟨hloop, _⟩
  rcases runLoop_ok_spec cfg env cfg.runs.toNat 1 res.runResults hloop with
    ⟨k, _, _, _, hrecs, _, _⟩
  refine ⟨hrecs, ?_, aggregate_all_empty⟩
  intro i hbad
  unfold recordRun executeRun
  by_cases h1 : (env.builtCommand i).isEmpty
  · rw [if_pos h1]
    exact ⟨_, rfl, rfl⟩
  · rw [if_neg h1]
    by_cases h2 : env.stdoutOk i
    · rw [if_neg (by simp [h2])]
      by_cases h3 : env.stderrOk i
      · rw [if_neg (by simp [h3])]
        by_cases h4 : env.artifactExists i
        · rw [if_neg (by simp [h4])]
          rcases hbad with hb | hb | hb | hb | ⟨e, hp⟩
          · exact absurd hb (by simp [h1])
          · exact absurd hb (by simp [h2])
          · exact absurd hb (by simp [h3])
          · exact absurd hb (by simp [h4])
          · rw [hp]
            exact ⟨_, rfl, rfl⟩
        · rw [if_pos (by simp [h4])]
          exact ⟨_, rfl, rfl⟩
      · rw [if_pos (by simp [h3])]
        exact ⟨_, rfl, rfl⟩
    · rw [if_pos (by simp [h2])]
      exact ⟨_, rfl, rfl⟩




/-- Witness for C7: a session in which every run errors still returns a
result, whose aggregation is the empty test list. -/
theorem C7_witness :
    Run cfgErr envErr = Except.ok resErr ∧
    Aggregate resErr.runResults = [] ∧
    ((∀ r ∈ resErr.runResults, r = recordRun envErr r.runIndex) ∧
    (∀ i, ((envErr.builtCommand i).isEmpty = true ∨
        envErr.stdoutOk i = false ∨
        envErr.stderrOk i = false ∨ envErr.artifactExists i = false ∨
        (∃ e, envErr.parseResult i = Except.error e)) →
      ∃ e, executeRun envErr i = Except.error e ∧
        recordRun envErr i = { runIndex := i, tests := [], err := some e }) ∧
    (∀ runs : List RunResult, (∀ r ∈ runs, r.tests = []) →
      Aggregate runs = [])) :=
  ⟨by decide, by decide,
    C7_errors_recovered cfgErr envErr resErr (by decide)⟩

/-! ## C8: adapter parse order and retry collapsing -/

theorem strLE_trans {a b c : String} (h1 : strLE a b) (h2 : strLE b c) :
    strLE a c := by
  rw [strLE_iff] at *
  exact le_trans h1 h2

theorem strLE_total (a b : String) : strLE a b ∨ strLE b a := by
  rw [strLE_iff, strLE_iff]
  exact le_total a b

instance : IsTrans (String × TestResult) entryLE :=
  ⟨fun _ _ _ h1 h2 => strLE_trans h1 h2⟩

instance : IsTotal (String × TestResult) entryLE :=
  ⟨fun a b => strLE_total a.1 b.1⟩

instance : IsTrans TestResult testLE :=
  ⟨fun _ _ _ h1 h2 => strLE_trans h1 h2⟩

instance : IsTotal TestResult testLE :=
  ⟨fun a b => strLE_total a.testID b.testID⟩

theorem upsert_lookup (k : String) (v : TestResult) (k' : String) :
    ∀ m : List (String × TestResult),
      alookup k' (upsert k v m) =
        if k' = k then some v else alookup k' m := by
  intro m
  induction m with
  | nil =>
    simp only [upsert, alookup]
    by_cases h : k' = k
    · rw [if_pos h.symm, if_pos h]
    · rw [if_neg (fun hh => h hh.symm), if_neg h]
  | cons e m ih =>
    obtain ⟨a, b⟩ := e
    simp only [upsert]
    by_cases ha : a = k
    · rw [if_pos ha]
      simp only [alookup]
      by_cases h : k' = k
      · rw [if_pos h.symm, if_pos h]
      · rw [if_neg (fun hh => h hh.symm), if_neg h,
          if_neg (fun hh : a = k' => h (hh ▸ ha))]
    · rw [if_neg ha]
      simp only [alookup]
      by_cases hak : a = k'
      · rw [if_pos hak,
          if_neg (fun hh : k' = k => ha (by rw [hak, hh])), if_pos hak]
      · rw [if_neg hak, if_neg hak, ih]

theorem upsert_keys (k : String) (v : TestResult) :
    ∀ m : List (String × TestResult),
      (upsert k v m).map Prod.fst =
        (if k ∈ m.map Prod.fst then m.map Prod.fst
         else m.map Prod.fst ++ [k]) := by
  intro m
  induction m with
  | nil => simp [upsert]
  | cons e m ih =>
    obtain ⟨a, b⟩ := e
    simp only [upsert, List.map_cons]
    by_cases ha : a = k
    · rw [if_pos ha, if_pos (by rw [ha]; exact List.mem_cons_self _ _),
        List.map_cons, ha]
    · rw [if_neg ha, List.map_cons, ih]
      by_cases hm : k ∈ m.map Prod.fst
      · rw [if_pos hm, if_pos (List.mem_cons_of_mem _ hm)]
      · rw [if_neg hm,
          if_neg (by
            rw [List.mem_cons]
            rintro (h | h)
            · exact ha h.symm
            · exact hm h), List.cons_append]

theorem upsert_nodup (k : String) (v : TestResult)
    (m : List (String × TestResult))
    (h : (m.map Prod.fst).Nodup) :
    ((upsert k v m).map Prod.fst).Nodup := by
  rw [upsert_keys]
  by_cases hm : k ∈ m.map Prod.fst
  · rw [if_pos hm]
    exact h
  · rw [if_neg hm]
    exact h.append (List.nodup_singleton _)
      (fun x hx hx2 => hm ((List.mem_singleton.mp hx2) ▸ hx))

theorem upsert_inv (k : String) (v : TestResult) (hv : v.testID = k) :
    ∀ m : List (String × TestResult),
      (∀ e ∈ m, e.2.testID = e.1) →
      ∀ e ∈ upsert k v m, e.2.testID = e.1 := by
  intro m
  induction m with
  | nil =>
    intro _ e he
    rcases List.mem_singleton.mp he with rfl
    exact hv
  | cons x m ih =>
    obtain ⟨a, b⟩ := x
    intro h e he
    simp only [upsert] at he
    by_cases ha : a = k
    · rw [if_pos ha] at he
      rcases List.mem_cons.mp he with rfl | he'
      · exact hv
      · exact h e (List.mem_cons_of_mem _ he')
    · rw [if_neg ha] at he
      rcases List.mem_cons.mp he with rfl | he'
      · exact h (a, b) (List.mem_cons_self _ _)
      · exact ih (fun x hx => h x (List.mem_cons_of_mem _ hx)) e he'

theorem collectCases_lookup :
    ∀ (cases : List JUnitTestCase) (m m' : List (String × TestResult)),
      collectCases cases m = Except.ok m' → ∀ k,
        alookup k m' =
          (match lastMatch k cases with
           | some tc => some (mkCypressTest tc)
           | none => alookup k m) := by
  intro cases
  induction cases with
  | nil =>
    intro m m' h k
    cases h
    rfl
  | cons tc rest ih =>
    intro m m' h k
    unfold collectCases at h
    by_cases hid : buildTestID tc.classname tc.name = ""
    · rw [if_pos hid] at h
      exact Except.noConfusion h
    · rw [if_neg hid] at h
      have hih := ih _ _ h k
      rw [hih]
      have hcons : lastMatch k (tc :: rest) =
          (match lastMatch k rest with
           | some tc' => some tc'
           | none =>
             if buildTestID tc.classname tc.name = k then some tc
             else none) := rfl
      rw [hcons]
      cases hl : lastMatch k rest with
      | some tc' => rfl
      | none =>
        rw [upsert_lookup]
        by_cases hk : buildTestID tc.classname tc.name = k
        · rw [if_pos hk.symm, if_pos hk]
        · rw [if_neg (fun hh => hk hh.symm), if_neg hk]

theorem collectCases_nodup :
    ∀ (cases : List JUnitTestCase) (m m' : List (String × TestResult)),
      collectCases cases m = Except.ok m' →
      (m.map Prod.fst).Nodup → (m'.map Prod.fst).Nodup := by
  intro cases
  induction cases with
  | nil =>
    intro m m' h hm
    cases h
    exact hm
  | cons tc rest ih =>
    intro m m' h hm
    unfold collectCases at h
    by_cases hid : buildTestID tc.classname tc.name = ""
    · rw [if_pos hid] at h
      exact Except.noConfusion h
    · rw [if_neg hid] at h
      exact ih _ _ h (upsert_nodup _ _ m hm)

theorem collectCases_inv :
    ∀ (cases : List JUnitTestCase) (m m' : List (String × TestResult)),
      collectCases cases m = Except.ok m' →
      (∀ e ∈ m, e.2.testID = e.1) →
      ∀ e ∈ m', e.2.testID = e.1 := by
  intro cases
  induction cases with
  | nil =>
    intro m m' h hm
    cases h
    exact hm
  | cons tc rest ih =>
    intro m m' h hm
    unfold collectCases at h
    by_cases hid : buildTestID tc.classname tc.name = ""
    · rw [if_pos hid] at h
      exact Except.noConfusion h
    · rw [if_neg hid] at h
      exact ih _ _ h
        (upsert_inv (buildTestID tc.classname tc.name) (mkCypressTest tc)
          rfl m hm)

theorem alookup_of_mem :
    ∀ m : List (String × TestResult), (m.map Prod.fst).Nodup →
      ∀ e ∈ m, alookup e.1 m = some e.2 := by
  intro m
  induction m with
  | nil => intro _ e he; exact absurd he (List.not_mem_nil e)
  | cons x m ih =>
    obtain ⟨a, b⟩ := x
    intro hnd e he
    simp only [alookup]
    rcases List.mem_cons.mp he with rfl | he'
    · rw [if_pos rfl]
    · by_cases ha : a = e.1
      · exfalso
        have hm1 : e.1 ∈ m.map Prod.fst := List.mem_map_of_mem _ he'
        rw [← ha] at hm1
        rw [List.map_cons] at hnd
        exact (List.nodup_cons.mp hnd).1 hm1
      · rw [if_neg ha]
        rw [List.map_cons] at hnd
        exact ih (List.nodup_cons.mp hnd).2 e he'

/-- C8 (amended).  The Cypress adapter's `Parse` returns its test list in
lexicographic `TestID` order with pairwise distinct identities, and the
recorded result of every identity is built from the last occurrence of
that identity in the run's artifact set.  The Jest adapter's `Parse`
returns its test list in lexicographic `TestID` order, as a permutation of
every extracted assertion — a repeated identity keeps every occurrence
rather than collapsing to the last one. -/
theorem C8_adapter_order_and_retries
    (frags : List (List JUnitTestCase)) (out : JestOutput)
    (r₁ r₂ : RunResult)
    (hc : cypressParse frags = Except.ok r₁)
    (hj : jestParse out = Except.ok r₂) :
    (r₁.tests.Sorted testLE ∧
     (r₁.tests.map (fun t => t.testID)).Nodup ∧
     (∀ t ∈ r₁.tests, ∃ tc,
        lastMatch t.testID frags.flatten = some tc ∧
          t = mkCypressTest tc)) ∧
    (r₂.tests.Sorted testLE ∧
     ∃ ts, extractTests out.testResults = Except.ok ts ∧
       r₂.tests.Perm ts) := by
  constructor
  · unfold cypressParse at hc
    by_cases he : frags.isEmpty
    · rw [if_pos he] at hc
      exact Except.noConfusion hc
    · rw [if_neg he] at hc
      cases hm : collectCases frags.flatten [] with
      | error e =>
        rw [hm] at hc
        exact Except.noConfusion hc
      | ok m =>
        rw [hm] at hc
        cases hc
        have hperm : (m.insertionSort entryLE).Perm m :=
          List.perm_insertionSort entryLE m
        have hsorted : (m.insertionSort entryLE).Sorted entryLE :=
          List.sorted_insertionSort entryLE m
        have hnodup : (m.map Prod.fst).Nodup :=
          collectCases_nodup frags.flatten [] m hm (by simp)
        have hinv : ∀ e ∈ m, e.2.testID = e.1 :=
          collectCases_inv frags.flatten [] m hm (by simp)
        have hinv' : ∀ e ∈ m.insertionSort entryLE, e.2.testID = e.1 :=
          fun e he => hinv e (hperm.subset he)
        refine ⟨?_, ?_, ?_⟩
        · show ((m.insertionSort entryLE).map (fun e => e.2)).Sorted testLE
          rw [List.Sorted, List.pairwise_map]
          exact hsorted.imp_of_mem (fun {e₁ e₂} h1 h2 hle => by
            show strLE e₁.2.testID e₂.2.testID
            rw [hinv' e₁ h1, hinv' e₂ h2]
            exact hle)
        · show (((m.insertionSort entryLE).map (fun e => e.2)).map
            (fun t => t.testID)).Nodup
          rw [List.map_map]
          have hmc : ((m.insertionSort entryLE).map
              ((fun t : TestResult => t.testID) ∘ fun e => e.2)) =
              (m.insertionSort entryLE).map Prod.fst :=
            List.map_congr_left (fun e he => hinv' e he)
          rw [hmc]
          exact ((hperm.map Prod.fst).nodup_iff).mpr hnodup
        · intro t ht
          rw [List.mem_map] at ht
          rcases ht with ⟨e, he, rfl⟩
          have hmem : e ∈ m := hperm.subset he
          have hl := alookup_of_mem m hnodup e hmem
          have := collectCases_lookup frags.flatten [] m hm e.1
          rw [hl] at this
          cases hlast : lastMatch e.1 frags.flatten with
          | none =>
            rw [hlast] at this
            exact Option.noConfusion this
          | some tc =>
            rw [hlast] at this
            refine ⟨tc, ?_, ?_⟩
            · rw [hinv e hmem, hlast]
            · exact Option.some.inj this
  · unfold jestParse at hj
    cases hx : extractTests out.testResults with
    | error e =>
      rw [hx] at hj
      exact Except.noConfusion hj
    | ok ts =>
      rw [hx] at hj
      cases hj
      exact ⟨List.sorted_insertionSort testLE ts,
        ts, rfl, List.perm_insertionSort testLE ts⟩


/-- Counterexample to C8 as stated: for the Jest adapter, a fail-then-pass
retry of one identity is not collapsed to its last occurrence — both
occurrences are returned, the failed one included. -/
theorem C8_counterexample :
    (jestParse jestDupOutput).toOption.map (fun r => r.tests.length) =
      some 2 ∧
    (jestParse jestDupOutput).toOption.map (fun r =>
      r.tests.countP (fun t => decide (t.testID = "f.test.ts::dup"))) =
      some 2 ∧
    (jestParse jestDupOutput).toOption.map (fun r =>
      r.tests.countP (fun t =>
        decide (t.testID = "f.test.ts::dup" ∧
          t.outcome = Outcome.fail))) = some 1 := by
  refine ⟨?_, ?_, ?_⟩ <;> decide






/-- Witness for the amended C8 at concrete adapter inputs. -/
theorem C8_witness :
    cypressParse witnessFrags = Except.ok wCyRes ∧
    jestParse witnessJestOut = Except.ok wJestRes ∧
    ((wCyRes.tests.Sorted testLE ∧
      (wCyRes.tests.map (fun t => t.testID)).Nodup ∧
      (∀ t ∈ wCyRes.tests, ∃ tc,
        lastMatch t.testID witnessFrags.flatten = some tc ∧
          t = mkCypressTest tc)) ∧
     (wJestRes.tests.Sorted testLE ∧
      ∃ ts, extractTests witnessJestOut.testResults = Except.ok ts ∧
        wJestRes.tests.Perm ts)) :=
  ⟨by decide, by decide,
    C8_adapter_order_and_retries witnessFrags witnessJestOut wCyRes wJestRes
      (by decide) (by decide)⟩

/-! ## C9: retention cleanup removes the oldest run directories -/

theorem digitChar_lt_iff {a b : Nat} (ha : a < 10) (hb : b < 10) :
    (Nat.digitChar a < Nat.digitChar b) ↔ a < b := by
  have H : ∀ a < 10, ∀ b < 10,
      ((Nat.digitChar a < Nat.digitChar b) ↔ a < b) := by decide
  exact H a ha b hb

theorem digitChar_eq_iff {a b : Nat} (ha : a < 10) (hb : b < 10) :
    (Nat.digitChar a = Nat.digitChar b) ↔ a = b := by
  have H : ∀ a < 10, ∀ b < 10,
      ((Nat.digitChar a = Nat.digitChar b) ↔ a = b) := by decide
  exact H a ha b hb

theorem list3_lt_iff {a b c d e f : Char} :
    (([a, b, c] : List Char) < [d, e, f]) ↔
      (a < d ∨ (a = d ∧ (b < e ∨ (b = e ∧ c < f)))) := by
  constructor
  · intro h
    cases h with
    | rel h1 => exact Or.inl h1
    | cons h2 =>
      refine Or.inr ⟨rfl, ?_⟩
      cases h2 with
      | rel h3 => exact Or.inl h3
      | cons h4 =>
        refine Or.inr ⟨rfl, ?_⟩
        cases h4 with
        | rel h5 => exact h5
        | cons h6 => cases h6
  · rintro (h1 | ⟨rfl, h2 | ⟨rfl, h3⟩⟩)
    · exact List.Lex.rel h1
    · exact List.Lex.cons (List.Lex.rel h2)
    · exact List.Lex.cons (List.Lex.cons (List.Lex.rel h3))

theorem runDirName_lt_iff {i j : Nat} (hi : i < 1000) (hj : j < 1000) :
    strLT (runDirName i) (runDirName j) ↔ i < j := by
  unfold runDirName strLT
  rw [if_pos hi, if_pos hj]
  show (([_, _, _] : List Char) < [_, _, _]) ↔ _
  rw [list3_lt_iff,
    digitChar_lt_iff (by omega) (by omega),
    digitChar_eq_iff (by omega) (by omega),
    digitChar_lt_iff (by omega) (by omega),
    digitChar_eq_iff (by omega) (by omega),
    digitChar_lt_iff (by omega) (by omega)]
  omega

theorem runDirName_ne {i j : Nat} (hi : i < 1000) (hj : j < 1000)
    (hne : i ≠ j) : runDirName i ≠ runDirName j := by
  rcases Nat.lt_or_ge i j with h | h
  · intro he
    have := (runDirName_lt_iff hi hj).mpr h
    rw [he] at this
    rw [strLT_iff] at this
    exact lt_irrefl _ this
  · intro he
    have := (runDirName_lt_iff hj hi).mpr (by omega)
    rw [he] at this
    rw [strLT_iff] at this
    exact lt_irrefl _ this

theorem names_sorted (N : Nat) (hN : N ≤ 999) :
    ((List.range' 1 N).map runDirName).Sorted strLE := by
  rw [List.Sorted, List.pairwise_map]
  refine (List.pairwise_lt_range' 1 N).imp_of_mem ?_
  intro i j hi hj hij
  have hi' : i < 1000 := by
    have := (List.mem_range'_1.mp hi).2
    omega
  have hj' : j < 1000 := by
    have := (List.mem_range'_1.mp hj).2
    omega
  show ¬strLT (runDirName j) (runDirName i)
  rw [runDirName_lt_iff hj' hi']
  omega

theorem countP_eq_one_of_nodup {α : Type} [DecidableEq α] (m : α) :
    ∀ l : List α, l.Nodup → m ∈ l →
      l.countP (fun x => decide (x = m)) = 1 := by
  intro l
  induction l with
  | nil => intro _ h; exact absurd h (List.not_mem_nil m)
  | cons a l ih =>
    intro hnd hm
    rw [List.countP_cons]
    rcases List.mem_cons.mp hm with rfl | hm'
    · have : l.countP (fun x => decide (x = m)) = 0 :=
        List.countP_eq_zero.mpr (fun x hx hpx => by
          have : x = m := of_decide_eq_true hpx
          exact (List.nodup_cons.mp hnd).1 (this ▸ hx))
      rw [this]
      simp
    · have hne : a ≠ m := fun h =>
        (List.nodup_cons.mp hnd).1 (h ▸ hm')
      rw [ih (List.nodup_cons.mp hnd).2 hm']
      simp [hne]

theorem sorted_unique_max_not_in_front (m : String) :
    ∀ l : List String, l.Sorted strLE →
      (∀ x ∈ l, x ≠ m → strLT x m) →
      l.countP (fun x => decide (x = m)) = 1 →
      m ∉ l.take (l.length - 1) := by
  intro l
  induction l with
  | nil => intro _ _ _; simp
  | cons a l ih =>
    intro hs hmax hc
    cases l with
    | nil => simp
    | cons b l' =>
      rw [List.length_cons, Nat.add_sub_cancel, List.take_cons (by simp)]
      intro hmem
      rw [List.countP_cons] at hc
      simp only [decide_eq_true_eq] at hc
      rcases List.mem_cons.mp hmem with rfl | hmem'
      · rw [if_pos rfl] at hc
        have hc0 : (b :: l').countP (fun x => decide (x = m)) = 0 := by
          omega
        have hbm : b ≠ m := by
          intro h
          exact List.countP_eq_zero.mp hc0 b (List.mem_cons_self b l')
            (decide_eq_true h)
        have hlt : strLT b m :=
          hmax b (List.mem_cons_of_mem _ (List.mem_cons_self b l')) hbm
        have hle : strLE m b :=
          (List.sorted_cons.mp hs).1 b (List.mem_cons_self b l')
        exact hle hlt
      · by_cases ham : a = m
        · rw [if_pos ham] at hc
          have hc0 : (b :: l').countP (fun x => decide (x = m)) = 0 := by
            omega
          have hmem2 : m ∈ (b :: l') := List.take_subset _ _ hmem'
          exact List.countP_eq_zero.mp hc0 m hmem2 (decide_eq_true rfl)
        · rw [if_neg ham] at hc
          have hc2 : (b :: l').countP (fun x => decide (x = m)) = 1 := by
            omega
          exact ih (List.sorted_cons.mp hs).2
            (fun x hx => hmax x (List.mem_cons_of_mem _ hx)) hc2 hmem'

instance : IsTrans String strLE :=
  ⟨fun _ _ _ h1 h2 => strLE_trans h1 h2⟩

instance : IsTotal String strLE :=
  ⟨strLE_total⟩

theorem runLoop_env_congr (cfg : RunnerConfig) (env : RunEnv) (b : Bool) :
    ∀ rem i, runLoop cfg { env with cleanupFails := b } i rem =
      runLoop cfg env i rem := by
  intro rem
  induction rem with
  | zero => intro _; rfl
  | succ rem ih =>
    intro i
    unfold runLoop
    have h1 : stopCheck cfg { env with cleanupFails := b } i =
        stopCheck cfg env i := rfl
    have h2 : ({ env with cleanupFails := b } : RunEnv).mkdirOk i =
        env.mkdirOk i := rfl
    have h3 : recordRun { env with cleanupFails := b } i =
        recordRun env i := rfl
    rw [h1, h2, h3, ih (i + 1)]

theorem Run_cleanup_independent (cfg : RunnerConfig) (env : RunEnv)
    (b : Bool) : Run cfg { env with cleanupFails := b } = Run cfg env := by
  unfold Run
  have h1 : ({ env with cleanupFails := b } : RunEnv).outDirOk =
      env.outDirOk := rfl
  rw [h1, runLoop_env_congr cfg env b]

theorem cleanupRemoved_eq_take (dirs : List String) (keepRuns : Nat)
    (h : keepRuns < dirs.length) :
    cleanupRemoved dirs keepRuns =
      (dirs.insertionSort strLE).take (dirs.length - keepRuns) := by
  show (if keepRuns < dirs.length then
      (dirs.insertionSort strLE).take (dirs.length - keepRuns)
    else []) = _
  rw [if_pos h]

/-- Counterexample to C9 as stated: with 1000 runs and a retention limit of
1, the removal set is not the names of runs 1–999 — directory `1000` sorts
lexicographically before `999`, so the newest directory is removed and
`999` is kept. -/
theorem C9_counterexample :
    cleanupRemoved ((List.range' 1 1000).map runDirName) 1 ≠
      (List.range' 1 999).map runDirName := by
  intro heq
  have hmemR : runDirName 999 ∈ (List.range' 1 999).map runDirName :=
    List.mem_map_of_mem _ (List.mem_range'_1.mpr ⟨by omega, by omega⟩)
  have hlen : ((List.range' 1 1000).map runDirName).length = 1000 := by
    rw [List.length_map, List.length_range']
  have hperm := List.perm_insertionSort strLE
    ((List.range' 1 1000).map runDirName)
  have hsorted := List.sorted_insertionSort strLE
    ((List.range' 1 1000).map runDirName)
  have hmax : ∀ x ∈ ((List.range' 1 1000).map runDirName).insertionSort
      strLE, x ≠ runDirName 999 → strLT x (runDirName 999) := by
    intro x hx hne
    have hx' : x ∈ (List.range' 1 1000).map runDirName := hperm.subset hx
    rcases List.mem_map.mp hx' with ⟨i, hi, rfl⟩
    have hi' := List.mem_range'_1.mp hi
    by_cases h1000 : i < 1000
    · have hne' : i ≠ 999 := fun h => hne (by rw [h])
      rw [runDirName_lt_iff h1000 (by omega)]
      omega
    · have hieq : i = 1000 := by omega
      subst hieq
      show strLT (runDirName 1000) (runDirName 999)
      decide
  have hcount : (((List.range' 1 1000).map runDirName).insertionSort
      strLE).countP (fun x => decide (x = runDirName 999)) = 1 := by
    rw [hperm.countP_eq, List.countP_map]
    have hcongr : List.countP
        ((fun x => decide (x = runDirName 999)) ∘ runDirName)
          (List.range' 1 1000) =
        List.countP (fun i => decide (i = 999)) (List.range' 1 1000) := by
      refine List.countP_congr ?_
      intro i hi
      have hi' := List.mem_range'_1.mp hi
      simp only [Function.comp_apply, decide_eq_true_eq]
      constructor
      · intro h
        by_cases h1000 : i < 1000
        · by_contra hne
          exact runDirName_ne h1000 (by omega) hne h
        · have hieq : i = 1000 := by omega
          subst hieq
          exact absurd h (by decide)
      · rintro rfl
        rfl
    rw [hcongr]
    exact countP_eq_one_of_nodup 999 _ (List.nodup_range' 1 1000)
      (List.mem_range'_1.mpr ⟨by omega, by omega⟩)
  have hnotin := sorted_unique_max_not_in_front (runDirName 999) _
    hsorted hmax hcount
  have hclean : cleanupRemoved ((List.range' 1 1000).map runDirName) 1 =
      (((List.range' 1 1000).map runDirName).insertionSort strLE).take
        ((((List.range' 1 1000)).map runDirName).length - 1) :=
    cleanupRemoved_eq_take _ 1 (by rw [hlen]; omega)
  have hlen2 : (((List.range' 1 1000).map runDirName).insertionSort
      strLE).length = 1000 := by
    rw [hperm.length_eq, hlen]
  rw [hclean, hlen] at heq
  rw [hlen2] at hnotin
  rw [← heq] at hmemR
  exact hnotin hmemR

/-- C9 (amended).  As long as at most 999 runs exist (run-directory names
are zero-padded to three digits, so their lexicographic order agrees with
the numeric run order only up to index 999), a configured retention limit
`K` with more than `K` run directories present removes exactly the oldest
`N − K` directories, in ascending index order; and the returned result of
`Run` never depends on whether cleanup fails. -/
theorem C9_cleanup_oldest (N K : Nat) (hK : 1 ≤ K) (hKN : K < N)
    (hN : N ≤ 999) :
    cleanupRemoved ((List.range' 1 N).map runDirName) K =
      (List.range' 1 (N - K)).map runDirName ∧
    (∀ (cfg : RunnerConfig) (env : RunEnv) (b : Bool),
      Run cfg { env with cleanupFails := b } = Run cfg env) := by
  constructor
  · have hsorted := names_sorted N hN
    have hlen : ((List.range' 1 N).map runDirName).length = N := by
      rw [List.length_map, List.length_range']
    rw [cleanupRemoved_eq_take _ K (by rw [hlen]; exact hKN)]
    rw [hsorted.insertionSort_eq, hlen, ← List.map_take]
    congr 1
    have happ : List.range' 1 (N - K) ++ List.range' (1 + (N - K)) K =
        List.range' 1 N := by
      have h := List.range'_append 1 (N - K) K 1
      rw [show K + (N - K) = N by omega,
        show 1 + 1 * (N - K) = 1 + (N - K) by omega] at h
      exact h
    rw [← happ, List.take_left' (by rw [List.length_range'])]
  · intro cfg env b
    exact Run_cleanup_independent cfg env b

/-- Witness for the amended C9 at `N = 5`, `K = 2`: runs 1–3 are removed,
runs 4 and 5 kept. -/
theorem C9_witness :
    (1 ≤ 2 ∧ 2 < 5 ∧ 5 ≤ 999) ∧
    (cleanupRemoved ((List.range' 1 5).map runDirName) 2 =
      (List.range' 1 3).map runDirName ∧
    (∀ (cfg : RunnerConfig) (env : RunEnv) (b : Bool),
      Run cfg { env with cleanupFails := b } = Run cfg env)) :=
  ⟨⟨by decide, by decide, by decide⟩,
    C9_cleanup_oldest 5 2 (by decide) (by decide) (by decide)⟩

/-- Witness for C1 at the concrete scenario-A input. -/
theorem C1_witness :
    witnessAggA ∈ Aggregate witnessRunsA ∧
    (witnessAggA.totalRuns = witnessAggA.passCount + witnessAggA.failCount ∧
    (witnessAggA.classification = Classification.flaky ↔
      1 ≤ witnessAggA.passCount ∧ 1 ≤ witnessAggA.failCount) ∧
    (witnessAggA.classification = Classification.deterministicFail ↔
      witnessAggA.failCount = witnessAggA.totalRuns ∧
        0 < witnessAggA.totalRuns) ∧
    (witnessAggA.classification = Classification.stable ↔
      ¬(1 ≤ witnessAggA.passCount ∧ 1 ≤ witnessAggA.failCount) ∧
        ¬(witnessAggA.failCount = witnessAggA.totalRuns ∧
          0 < witnessAggA.totalRuns))) :=
  ⟨by decide, C1_classification_partition witnessRunsA witnessAggA (by decide)⟩

end FlakeHunt
